import Mathlib

set_option maxRecDepth 200000

/-!
Verification of the LikeC4 MCP query tools (path finder, incomers subgraph
extractor, tag and metadata predicate matchers) against their natural-language
specification.

The TypeScript source is shallowly embedded: each handler becomes a pure Lean
function over an abstract immutable `Model` snapshot (the Entity Store of the
spec, an external collaborator, appears as opaque accessor fields of `Model`);
JS mutation loops become recursive functions with explicit accumulators;
fallible handlers (the `invariant` calls) return `Except String`.
-/

namespace LikeC4

/-- A metadata value is either a single string or a list of strings
(`string | string[]` in the source). -/
inductive MetaValue where
  | str : String → MetaValue
  | arr : List String → MetaValue
deriving DecidableEq

/-- The `Array.isArray(metadataValue) ? metadataValue : [metadataValue]`
normalization used by both metadata helpers. -/
def toValues : MetaValue → List String
  | .str s => [s]
  | .arr l => l

/-- A view reference as projected by `includedInViews` in `_common.ts`:
view id, `titleOrId`, and the view type string. -/
structure ViewRef where
  id : String
  title : String
  type : String
deriving DecidableEq

/-- A relationship record, with literal source and target element ids and the
relationship attributes exposed unchanged (kind, title, description text,
technology, tags). `null` becomes `none`. -/
structure Relationship where
  source : String
  target : String
  kind : Option String
  title : Option String
  description : Option String
  technology : Option String
  tags : List String
deriving DecidableEq

/-- The per-entity data the handlers read off an element object returned by
`model.findElement` / `model.elements()` / `model.deployment.elements()`:
identity fields, tags, metadata record and (already projected) view
memberships. -/
structure ElementData where
  id : String
  name : String
  kind : String
  title : String
  tags : List String
  metadata : List (String × MetaValue)
  views : List ViewRef
deriving DecidableEq

/-- The immutable model snapshot. The element and deployment universes are the
two entity lists; `isAncestorOf`, `outgoing` and `incoming` are the Entity
Store accessors the handlers call (`incoming` and `outgoing` are taken at the
filter chosen by the querying operation). -/
structure Model where
  elements : List ElementData
  deploymentElements : List ElementData
  isAncestorOf : String → String → Bool
  outgoing : String → List Relationship
  incoming : String → List Relationship

/-- `model.findElement(id)`: id-keyed lookup in the element universe. -/
def Model.findElement (m : Model) (id : String) : Option ElementData :=
  m.elements.find? (fun e => e.id == id)

/-- Result cap shared by the tag and metadata search handlers
(`const limit = 50`). -/
def resultsLimit : Nat := 50

/-! ### JS string helpers -/

/-- Occurrence of `n` as a contiguous run inside `h`
(JS `String.prototype.includes` on the character lists). -/
def subAt (n : List Char) : List Char → Bool
  | [] => n.isPrefixOf []
  | c :: cs => n.isPrefixOf (c :: cs) || subAt n cs

/-- JS `hay.includes(needle)`. -/
def strIncludes (hay needle : String) : Bool :=
  subAt needle.toList hay.toList

/-- JS `String.prototype.toLowerCase`, as per-character lowering of the
character list (extensionally the standard library's `String.toLower`, whose
byte-position recursion does not reduce definitionally). -/
def jsToLower (s : String) : String :=
  ⟨s.data.map Char.toLower⟩

/-- JS string truthiness: `a || b` where `a : string | undefined` falls through
to `b` when `a` is `undefined` or the empty string. -/
def truthyOr (a : Option String) (b : String) : String :=
  match a with
  | some s => if s == "" then b else s
  | none => b

/-! ### query-by-metadata -/

/-- The `matches` helper of the query-by-metadata handler (named `matchesMeta`
here because `matches` is reserved in Lean): mode dispatch over
`exists` / `exact` / `contains`, any-element semantics over the value list,
`false` when the search value is absent in the value-dependent modes, and
`false` for an unknown mode. -/
def matchesMeta (metadataValue : MetaValue) (searchValue : Option String) (mode : String) : Bool :=
  let values := toValues metadataValue
  if mode == "exists" then
    true
  else if mode == "exact" then
    match searchValue with
    | none => false
    | some sv => values.any (fun v => v == sv)
  else if mode == "contains" then
    match searchValue with
    | none => false
    | some sv =>
      let searchLower := jsToLower sv
      values.any (fun v => strIncludes (jsToLower v) searchLower)
  else
    false

/-- The `getMatchedValue` helper: the first value satisfying the mode's
predicate, with the JS `|| values[0] || ''` falsy fallbacks. -/
def getMatchedValue (metadataValue : MetaValue) (searchValue : Option String) (mode : String) : String :=
  let values := toValues metadataValue
  if mode == "exists" || searchValue == none then
    truthyOr values.head? ""
  else if mode == "exact" then
    match searchValue with
    | none => truthyOr values.head? ""
    | some sv => truthyOr (values.find? (fun v => v == sv)) (truthyOr values.head? "")
  else if mode == "contains" then
    match searchValue with
    | none => truthyOr values.head? ""
    | some sv =>
      let searchLower := jsToLower sv
      truthyOr (values.find? (fun v => strIncludes (jsToLower v) searchLower))
        (truthyOr values.head? "")
  else
    truthyOr values.head? ""

/-- `args.key in metadata` followed by `metadata[args.key]`. -/
def getMeta (md : List (String × MetaValue)) (key : String) : Option MetaValue :=
  (md.find? (fun p => p.1 == key)).map (fun p => p.2)

/-- One result record of the query-by-metadata handler. -/
structure QMResult where
  id : String
  name : String
  kind : String
  title : String
  tags : List String
  metadata : List (String × MetaValue)
  matchedValue : String
  includedInViews : List ViewRef
deriving DecidableEq

/-- Projection of a matching entity into a query-by-metadata result record. -/
def mkQMResult (e : ElementData) (mv : MetaValue) (value : Option String) (mode : String) : QMResult :=
  { id := e.id, name := e.name, kind := e.kind, title := e.title, tags := e.tags,
    metadata := e.metadata, matchedValue := getMatchedValue mv value mode,
    includedInViews := e.views }

/-- The `for ... of` search loop of the query-by-metadata handler over one
entity universe, with the `results.length >= limit` break check at the top of
each iteration. -/
def searchMetaEnts (key : String) (value : Option String) (mode : String) :
    List ElementData → List QMResult → List QMResult
  | [], acc => acc
  | e :: rest, acc =>
    if resultsLimit ≤ acc.length then acc
    else
      match getMeta e.metadata key with
      | some mv =>
        if matchesMeta mv value mode then
          searchMetaEnts key value mode rest (acc ++ [mkQMResult e mv value mode])
        else
          searchMetaEnts key value mode rest acc
      | none => searchMetaEnts key value mode rest acc

/-- The query-by-metadata handler body: `matchMode = args.matchMode ?? 'exact'`,
search elements, then deployment nodes if the cap is not yet reached. The
handler performs no validation, so it is a total function. -/
def queryByMetadata (m : Model) (key : String) (value : Option String)
    (matchModeArg : Option String) : List QMResult :=
  let matchMode := matchModeArg.getD "exact"
  let r1 := searchMetaEnts key value matchMode m.elements []
  if r1.length < resultsLimit then searchMetaEnts key value matchMode m.deploymentElements r1
  else r1

/-! ### query-by-tags -/

/-- JS truthiness of `args.xs && args.xs.length > 0` for an optional tag
list. -/
def nonEmptyTagList : Option (List String) → Bool
  | some l => decide (0 < l.length)
  | none => false

/-- The `matchesTags` helper: the `allOf` / `anyOf` / `noneOf` conditions
checked conjunctively, each skipped when its list is absent or empty.
`tags.has` on the JS `Set` built from the entity's tags is list membership. -/
def matchesTags (allOf anyOf noneOf : Option (List String)) (tags : List String) : Bool :=
  (if nonEmptyTagList allOf then (allOf.getD []).all (fun t => tags.contains t) else true) &&
  (if nonEmptyTagList anyOf then (anyOf.getD []).any (fun t => tags.contains t) else true) &&
  (if nonEmptyTagList noneOf then !((noneOf.getD []).any (fun t => tags.contains t)) else true)

/-- One result record of the query-by-tags handler. -/
structure TagResult where
  id : String
  name : String
  kind : String
  title : String
  tags : List String
  metadata : List (String × MetaValue)
  includedInViews : List ViewRef
deriving DecidableEq

/-- Projection of a matching entity into a query-by-tags result record. -/
def mkTagResult (e : ElementData) : TagResult :=
  { id := e.id, name := e.name, kind := e.kind, title := e.title, tags := e.tags,
    metadata := e.metadata, includedInViews := e.views }

/-- The query-by-tags search loop over one entity universe with the cap
check at the top of each iteration. -/
def searchTagEnts (allOf anyOf noneOf : Option (List String)) :
    List ElementData → List TagResult → List TagResult
  | [], acc => acc
  | e :: rest, acc =>
    if resultsLimit ≤ acc.length then acc
    else if matchesTags allOf anyOf noneOf e.tags then
      searchTagEnts allOf anyOf noneOf rest (acc ++ [mkTagResult e])
    else
      searchTagEnts allOf anyOf noneOf rest acc

/-- The query-by-tags handler: the `invariant` that at least one condition is
non-empty, then the two search loops. -/
def queryByTags (m : Model) (allOf anyOf noneOf : Option (List String)) :
    Except String (List TagResult) :=
  if !(nonEmptyTagList allOf || nonEmptyTagList anyOf || nonEmptyTagList noneOf) then
    .error "At least one condition (allOf, anyOf, or noneOf) must be specified with at least one tag"
  else
    let r1 := searchTagEnts allOf anyOf noneOf m.elements []
    .ok (if r1.length < resultsLimit then searchTagEnts allOf anyOf noneOf m.deploymentElements r1
         else r1)

/-! ### find-relationship-paths -/

/-- The relationship attribute record stored on each path step. -/
structure RelInfo where
  kind : Option String
  title : Option String
  description : Option String
  technology : Option String
  tags : List String
deriving DecidableEq

/-- One step of a discovered path, built from a relationship record with its
literal source and target ids (`rel.source.id`, `rel.target.id`). -/
structure PathStep where
  source : String
  target : String
  relationship : RelInfo
deriving DecidableEq

/-- `pathStep` construction as written twice in the handler. -/
def mkPathStep (r : Relationship) : PathStep :=
  { source := r.source, target := r.target,
    relationship := { kind := r.kind, title := r.title, description := r.description,
                      technology := r.technology, tags := r.tags } }

/-- A frontier item of the path BFS: current element, accumulated steps, and
the path-local visited set (kept as a list; only membership is used). -/
structure PathNode where
  elementId : String
  path : List PathStep
  visited : List String
deriving DecidableEq

/-- A completed path record. -/
structure FoundPath where
  length : Nat
  steps : List PathStep
deriving DecidableEq

/-- `const maxPaths = 100`. -/
def maxPaths : Nat := 100

/-- The `for (const rel of currentElement.outgoing())` body, folded over the
relationship list: a relationship into the target immediately materializes a
completed path; a relationship into an element already in this path's visited
set is dropped; anything else becomes a new frontier item with the step
appended and the target added to a copy of the visited set. Completed paths
and new frontier items are each accumulated in relationship order. -/
def expandStep (targetId : String) (cur : PathNode)
    (acc : List FoundPath × List PathNode) (r : Relationship) :
    List FoundPath × List PathNode :=
  if r.target == targetId then
    (acc.1 ++ [{ length := cur.path.length + 1, steps := cur.path ++ [mkPathStep r] }], acc.2)
  else if cur.visited.contains r.target then
    acc
  else
    (acc.1,
     acc.2 ++ [{ elementId := r.target, path := cur.path ++ [mkPathStep r],
                 visited := cur.visited ++ [r.target] }])

def expandRels (targetId : String) (cur : PathNode) (rels : List Relationship) :
    List FoundPath × List PathNode :=
  rels.foldl (expandStep targetId cur) ([], [])

/-- The `while (queue.length > 0 && foundPaths.length < maxPaths)` loop. The
loop is fuel-indexed; `pathsFuel` below supplies fuel exceeding the number of
iterations any run can take. Each iteration shifts the head frontier item,
drops it if its path has reached `maxDepth` or its element does not resolve,
and otherwise expands its outgoing relationships. -/
def bfsPaths (m : Model) (targetId : String) (maxDepth : Nat) :
    Nat → List PathNode → List FoundPath → List FoundPath
  | 0, _, found => found
  | _ + 1, [], found => found
  | fuel + 1, cur :: rest, found =>
    if maxPaths ≤ found.length then found
    else if maxDepth ≤ cur.path.length then bfsPaths m targetId maxDepth fuel rest found
    else
      match m.findElement cur.elementId with
      | none => bfsPaths m targetId maxDepth fuel rest found
      | some el =>
        let ex := expandRels targetId cur (m.outgoing el.id)
        bfsPaths m targetId maxDepth fuel (rest ++ ex.2) (found ++ ex.1)

/-- Largest outgoing-relationship count over the element universe. -/
def maxOutDegree (m : Model) : Nat :=
  m.elements.foldl (fun acc e => max acc (m.outgoing e.id).length) 0

/-- Fuel bound for the path BFS: every frontier item ever enqueued is a
distinct outgoing-relationship chain of length at most `maxDepth` from the
source, so the iteration count is below `(maxOutDegree + 1) ^ (maxDepth + 1)`
plus the initial item. -/
def pathsFuel (m : Model) (maxDepth : Nat) : Nat :=
  (maxOutDegree m + 1) ^ (maxDepth + 1) + maxDepth + 2

/-- The BFS portion of the find-relationship-paths handler, from the initial
queue holding the source with an empty path and `visited = {source}`. The
returned list is in discovery order, before the final sort. -/
def rawPaths (m : Model) (sourceId targetId : String) (maxDepth : Nat) : List FoundPath :=
  bfsPaths m targetId maxDepth (pathsFuel m maxDepth)
    [{ elementId := sourceId, path := [], visited := [sourceId] }] []

/-- Stable insertion of a completed path before the first strictly longer one.
Used to model `foundPaths.sort((a, b) => a.length - b.length)`: ES2019
requires `Array.prototype.sort` to be stable, and a stable sort by a total
preorder has a unique result, so any stable sorting algorithm embeds it
faithfully. -/
def insertByLen (p : FoundPath) : List FoundPath → List FoundPath
  | [] => [p]
  | q :: qs => if q.length < p.length then q :: insertByLen p qs else p :: q :: qs

/-- Stable sort of completed paths ascending by hop count. -/
def sortByLen : List FoundPath → List FoundPath
  | [] => []
  | x :: xs => insertByLen x (sortByLen xs)

/-- The find-relationship-paths handler: resolve source and target
(`invariant` → NotFound), reject equal ids and ancestor/descendant pairs
(`invariant` → InvalidArgument), clamp `maxDepth` at 5, run the BFS, sort. The
argument `maxDepthArg` is the schema-validated value (zod has already applied
the default, so `args.maxDepth ?? 3` is the identity). -/
def findRelationshipPaths (m : Model) (sourceId targetId : String) (maxDepthArg : Nat) :
    Except String (List FoundPath) :=
  match m.findElement sourceId with
  | none => .error "Source element not found in project"
  | some src =>
    match m.findElement targetId with
    | none => .error "Target element not found in project"
    | some tgt =>
      if src.id == tgt.id then
        .error "Source and target must be different elements"
      else if m.isAncestorOf src.id tgt.id || m.isAncestorOf tgt.id src.id then
        .error "Source and target cannot be in parent-child relationship (no relationship paths possible)"
      else
        .ok (sortByLen (rawPaths m src.id tgt.id (min maxDepthArg 5)))

/-! ### query-incomers-graph -/

/-- One entry of a node's `incomers` summary:
`{elementId: rel.source.id, relationshipLabel?, technology?}` where the two
optional fields are set only when the relationship attribute is truthy
(present and non-empty). -/
structure IncomerData where
  elementId : String
  relationshipLabel : Option String
  technology : Option String
deriving DecidableEq

/-- The `incomersData` projection of one incoming relationship. -/
def mkIncomerData (r : Relationship) : IncomerData :=
  { elementId := r.source,
    relationshipLabel :=
      match r.title with
      | some tl => if tl == "" then none else some tl
      | none => none,
    technology :=
      match r.technology with
      | some te => if te == "" then none else some te
      | none => none }

/-- One stored node of the incomers subgraph. -/
structure SubNode where
  id : String
  name : String
  kind : String
  title : String
  tags : List String
  metadata : List (String × MetaValue)
  includedInViews : List ViewRef
  incomers : List IncomerData
  depth : Nat
deriving DecidableEq

/-- The node record stored for a visited element. -/
def mkSubNode (e : ElementData) (inc : List IncomerData) (depth : Nat) : SubNode :=
  { id := e.id, name := e.name, kind := e.kind, title := e.title, tags := e.tags,
    metadata := e.metadata, includedInViews := e.views, incomers := inc, depth := depth }

/-- The mutable state the incomers BFS loop has produced when it stops:
visited ids in visit order, the `nodes` record (an insertion-ordered map),
`actualMaxDepth`, and the truncation flag. -/
structure SubLoopOut where
  visited : List String
  nodes : List (String × SubNode)
  actualMaxDepth : Nat
  truncated : Bool
deriving DecidableEq

/-- The `while (queue.length > 0)` loop of the query-incomers-graph handler.
Per dequeued `(elementId, depth)`: skip when past `maxDepth`; skip when
already visited; if the visited count has reached `maxNodes`, stop everything
with `truncated = true`; skip when the element does not resolve; otherwise
mark visited, store the node with its incomers summary, and enqueue each
not-yet-visited incomer at `depth + 1`. Terminates because each recursive
call either grows the (bounded) visited list or shrinks the queue. -/
def subLoop (m : Model) (maxDepth maxNodes : Nat) :
    List (String × Nat) → List String → List (String × SubNode) → Nat → SubLoopOut
  | [], visited, nodes, amd =>
    { visited := visited, nodes := nodes, actualMaxDepth := amd, truncated := false }
  | (elementId, depth) :: rest, visited, nodes, amd =>
    if maxDepth < depth then
      subLoop m maxDepth maxNodes rest visited nodes amd
    else if visited.contains elementId then
      subLoop m maxDepth maxNodes rest visited nodes amd
    else if maxNodes ≤ visited.length then
      { visited := visited, nodes := nodes, actualMaxDepth := amd, truncated := true }
    else
      match m.findElement elementId with
      | none => subLoop m maxDepth maxNodes rest visited nodes amd
      | some el =>
        let visited2 := visited ++ [elementId]
        let incomersData := (m.incoming elementId).map mkIncomerData
        let nodes2 := nodes ++ [(elementId, mkSubNode el incomersData depth)]
        let newItems :=
          (incomersData.filter (fun i => !(visited2.contains i.elementId))).map
            (fun i => (i.elementId, depth + 1))
        subLoop m maxDepth maxNodes (rest ++ newItems) visited2 nodes2 (max amd depth)
termination_by q visited _ _ => (maxNodes - visited.length, q.length)
decreasing_by
  · simp_wf; right; omega
  · simp_wf; right; omega
  · simp_wf; right; omega
  · simp_wf; left; omega

/-- The full response of the query-incomers-graph handler. -/
structure SubResult where
  target : String
  totalNodes : Nat
  maxDepth : Nat
  truncated : Bool
  nodes : List (String × SubNode)
deriving DecidableEq

/-- The query-incomers-graph handler: resolve the target element
(`invariant` → NotFound), clamp `maxDepth` at 100 and `maxNodes` at 5000, run
the BFS from `(elementId, 0)` with empty visited set, and assemble the
response (`totalNodes = visited.size`). The numeric arguments are the
schema-validated values. -/
def queryIncomersGraph (m : Model) (elementId : String) (maxDepthArg maxNodesArg : Nat) :
    Except String SubResult :=
  match m.findElement elementId with
  | none => .error "Element not found in project"
  | some _ =>
    let maxDepth := min maxDepthArg 100
    let maxNodes := min maxNodesArg 5000
    let o := subLoop m maxDepth maxNodes [(elementId, 0)] [] [] 0
    .ok { target := elementId, totalNodes := o.visited.length, maxDepth := o.actualMaxDepth,
          truncated := o.truncated, nodes := o.nodes }

/-! ### The reachable closure

The specification's reference notion for the Subgraph Extractor claims: the
set of entities reachable from the start within a given number of hops, each
hop following one incoming relationship to its (existing) source entity.
`reachComp m z d` is cumulative: it contains exactly the entities reachable
from `z` in at most `d` hops through existing entities. -/

/-- Existing incomer neighbors of an entity: literal sources of its incoming
relationships that resolve in the model. -/
def existingNeighborIds (m : Model) (x : String) : List String :=
  ((m.incoming x).map (fun r => r.source)).filter (fun y => (m.findElement y).isSome)

/-- Append the members of `ys` not already present, preserving order and
duplicate-freedom. -/
def addNew (acc : List String) : List String → List String
  | [] => acc
  | y :: ys => if acc.contains y then addNew acc ys else addNew (acc ++ [y]) ys

/-- One expansion step of the reachable closure. -/
def reachStep (m : Model) (cur : List String) : List String :=
  cur.foldl (fun acc x => addNew acc (existingNeighborIds m x)) cur

/-- Entities reachable from `z` within `d` hops (empty when `z` itself does
not exist). -/
def reachComp (m : Model) (z : String) : Nat → List String
  | 0 => if (m.findElement z).isSome then [z] else []
  | d + 1 => reachStep m (reachComp m z d)

/-! ### Input schemas

The zod input schemas run before any handler body: a numeric option is
defaulted when absent and rejected with a validation error when outside its
declared bounds; zod `min` / `max` / `positive` checks reject, they do not
clamp. -/

/-- A zod `z.number().int().min(lo).max(hi).optional().default(dflt)` chain
applied to an (integral) input. -/
def zodIntRange (lo hi dflt : Int) (v : Option Int) : Except String Int :=
  match v with
  | none => .ok dflt
  | some n =>
    if n < lo then .error "Number must be greater than or equal to minimum"
    else if hi < n then .error "Number must be less than or equal to maximum"
    else .ok n

/-- The find-relationship-paths `maxDepth` schema:
`z.number().int().min(1).max(5).optional().default(3)`. -/
def pathMaxDepthSchema : Option Int → Except String Int :=
  zodIntRange 1 5 3

/-- The query-incomers-graph `maxDepth` schema:
`z.number().int().positive().max(100).optional().default(50)`. -/
def subgraphMaxDepthSchema : Option Int → Except String Int :=
  zodIntRange 1 100 50

/-- The query-incomers-graph `maxNodes` schema:
`z.number().int().positive().max(5000).optional().default(1000)`. -/
def subgraphMaxNodesSchema : Option Int → Except String Int :=
  zodIntRange 1 5000 1000

/-! ### Spec-modelled Entity Store pieces

The handlers call `element.outgoing()` with the Entity Store's default
(indirect) relationship filter. The Entity Store lives in the external
`@likec4/core` library, outside this repository's source, so its indirect
filter is modelled from the specification here. -/

/-- Proper ancestors of an entity, walking parent pointers (fuel-bounded;
the parent graph is a finite tree, so any fuel at least the tree height is
exact). -/
def ancestorChain (parentOf : String → Option String) : Nat → String → List String
  | 0, _ => []
  | n + 1, x =>
    match parentOf x with
    | none => []
    | some p => p :: ancestorChain parentOf n p

/-- Membership of `x` in the subtree rooted at `root`. -/
def inSubtree (parentOf : String → Option String) (fuel : Nat) (x root : String) : Bool :=
  x == root || (ancestorChain parentOf fuel x).contains root

/-- Modelled from the spec: the Entity Store's indirect (default) outgoing
relationship filter of section 4.2, implemented in the external
`@likec4/core` model library and absent from this repository's source.
`outgoing(id)` under the indirect filter contains the relationships whose
source is `id` or any descendant of `id`, excluding those staying entirely
within `id`'s own subtree; each returned record exposes the literal source
and target ids unchanged. -/
def indirectOutgoing (parentOf : String → Option String) (fuel : Nat)
    (rels : List Relationship) (id : String) : List Relationship :=
  rels.filter (fun r =>
    inSubtree parentOf fuel r.source id && !(inSubtree parentOf fuel r.target id))

/-- The node sequence a completed path visits when read off its steps: the
first step's literal source followed by every step's literal target. For a
chained path this is the sequence of entities the path traverses. -/
def pathNodeIds (p : FoundPath) : List String :=
  match p.steps with
  | [] => []
  | st :: _ => st.source :: p.steps.map (fun x => x.target)

/-! ### Path BFS invariants (proof-side definitions) -/

/-- Invariant of a frontier item: the source followed by the accumulated step
targets is duplicate-free, everything in it is in the path-local visited set,
and no accumulated step has reached the target (a target hit materializes a
path instead of a frontier item). -/
def nodeInv (sourceId targetId : String) (nd : PathNode) : Prop :=
  (sourceId :: nd.path.map (fun st => st.target)).Nodup ∧
  (∀ x ∈ nd.path.map (fun st => st.target), x ∈ nd.visited) ∧
  sourceId ∈ nd.visited ∧
  targetId ∉ nd.path.map (fun st => st.target)

/-- Shape of a well-formed completed path: consistent length, within the
depth bound, duplicate-free node ids (source and step targets), destination
exactly at the last step's target. -/
def goodPath (sourceId targetId : String) (maxDepth : Nat) (p : FoundPath) : Prop :=
  p.steps.length = p.length ∧
  p.length ≤ maxDepth ∧
  (sourceId :: p.steps.map (fun st => st.target)).Nodup ∧
  (p.steps.map (fun st => st.target)).getLast? = some targetId

/-! ### Concrete model instances used by counterexamples and witnesses -/

/-- Entity record with the given id and placeholder attributes. -/
def mkEl (i : String) : ElementData :=
  { id := i, name := i, kind := "system", title := i, tags := [], metadata := [], views := [] }

/-- Model with 101 parallel relationships from `s` to `t` (the relationship
layer is a multigraph, section 3 of the spec). -/
def mMulti : Model :=
  { elements := [mkEl "s", mkEl "t"], deploymentElements := [],
    isAncestorOf := fun _ _ => false,
    outgoing := fun id =>
      if id == "s" then List.replicate 101 ⟨"s", "t", none, none, none, none, []⟩ else [],
    incoming := fun _ => [] }

/-- Model with a direct edge `s → t` and a two-hop chain `s → a → t`. -/
def mTwoPaths : Model :=
  { elements := [mkEl "s", mkEl "a", mkEl "t"], deploymentElements := [],
    isAncestorOf := fun _ _ => false,
    outgoing := fun id =>
      if id == "s" then
        [⟨"s", "a", none, none, none, none, []⟩, ⟨"s", "t", none, none, none, none, []⟩]
      else if id == "a" then [⟨"a", "t", none, none, none, none, []⟩]
      else [],
    incoming := fun _ => [] }

/-- Parent map of the nested model: `s.c` is a child of `s`. -/
def parNested : String → Option String :=
  fun x => if x == "s.c" then some "s" else none

/-- Relationship list of the nested model. -/
def relsNested : List Relationship :=
  [⟨"s.c", "b", none, none, none, none, []⟩,
   ⟨"b", "s.c", none, none, none, none, []⟩,
   ⟨"s.c", "t", none, none, none, none, []⟩]

/-- Model where the path source `s` has a child `s.c` whose relationships are
attributed to `s` by the indirect outgoing filter: `s.c → b`, `b → s.c`,
`s.c → t`. -/
def mNested : Model :=
  { elements := [mkEl "s", mkEl "s.c", mkEl "b", mkEl "t"], deploymentElements := [],
    isAncestorOf := fun a b => (ancestorChain parNested 5 b).contains a,
    outgoing := indirectOutgoing parNested 5 relsNested,
    incoming := fun _ => [] }

/-- Model for the incomers subgraph: `b` feeds `a`, and `a` is the query
start. -/
def mIncomers : Model :=
  { elements := [mkEl "a", mkEl "b"], deploymentElements := [],
    isAncestorOf := fun _ _ => false,
    outgoing := fun _ => [],
    incoming := fun id =>
      if id == "a" then [⟨"b", "a", none, some "feeds", none, none, []⟩] else [] }

/-! ### Subgraph BFS invariants (proof-side definitions) -/

/-- State invariant of the incomers BFS loop, relating the pending queue, the
visited list and the stored nodes to the reachable closure from `start`. -/
structure SubInv (m : Model) (start : String) (maxDepth maxNodes : Nat)
    (q : List (String × Nat)) (visited : List String)
    (nodes : List (String × SubNode)) : Prop where
  align : nodes.map Prod.fst = visited
  nodup : visited.Nodup
  vlen : visited.length ≤ maxNodes
  qok : List.Pairwise (fun a b => a.2 ≤ b.2 ∧ b.2 ≤ a.2 + 1) q
  qsound : ∀ it ∈ q, (m.findElement it.1).isSome = true → it.1 ∈ reachComp m start it.2
  recok : ∀ p ∈ nodes,
    (m.findElement p.1).isSome = true ∧ p.2.depth ≤ maxDepth ∧
    p.1 ∈ reachComp m start p.2.depth ∧
    ∀ d, d < p.2.depth → p.1 ∉ reachComp m start d
  clob : ∀ p ∈ nodes, ∀ y ∈ existingNeighborIds m p.1,
    maxDepth < p.2.depth + 1 ∨ y ∈ visited ∨ ∃ dy, dy ≤ p.2.depth + 1 ∧ (y, dy) ∈ q
  startok : (m.findElement start).isSome = true →
    (nodes = [] ∧ visited = [] ∧ q = [(start, 0)]) ∨
    ∃ nd : SubNode, (start, nd) ∈ nodes ∧ nd.depth = 0

/-- What a finished run of the incomers BFS loop guarantees, given the state
invariant at entry. -/
structure SubOut (m : Model) (start : String) (maxDepth maxNodes : Nat)
    (q : List (String × Nat)) (visited : List String) (o : SubLoopOut) : Prop where
  align : o.nodes.map Prod.fst = o.visited
  nodup : o.visited.Nodup
  vlen : o.visited.length ≤ maxNodes
  mono : ∀ x ∈ visited, x ∈ o.visited
  recok : ∀ p ∈ o.nodes,
    (m.findElement p.1).isSome = true ∧ p.2.depth ≤ maxDepth ∧
    p.1 ∈ reachComp m start p.2.depth ∧
    ∀ d, d < p.2.depth → p.1 ∉ reachComp m start d
  trunc_count : o.truncated = true → o.visited.length = maxNodes
  complete_q : o.truncated = false → ∀ it ∈ q, it.2 ≤ maxDepth →
    (m.findElement it.1).isSome = true → it.1 ∈ o.visited
  complete_nb : o.truncated = false → ∀ p ∈ o.nodes, ∀ y ∈ existingNeighborIds m p.1,
    p.2.depth + 1 ≤ maxDepth → y ∈ o.visited
  startout : 1 ≤ maxNodes → (m.findElement start).isSome = true →
    ∃ nd : SubNode, (start, nd) ∈ o.nodes ∧ nd.depth = 0

/-! ## Supporting lemmas -/

theorem subAt_iff (n : List Char) : ∀ h : List Char, subAt n h = true ↔ n <:+: h := by
  intro h
  induction h with
  | nil =>
    rw [subAt, List.isPrefixOf_iff_prefix, List.prefix_nil, List.infix_nil]
  | cons c cs ih =>
    rw [subAt, Bool.or_eq_true, List.isPrefixOf_iff_prefix, ih, List.infix_cons_iff]

theorem truthyOr_head (l : List String) : truthyOr l.head? "" = l.headD "" := by
  cases l with
  | nil => rfl
  | cons a as =>
    show (if a == "" then "" else a) = a
    by_cases h : a = ""
    · simp [h]
    · simp [h]

theorem matchesMeta_exact_eq (mv : MetaValue) (v : String) :
    matchesMeta mv (some v) "exact" = (toValues mv).any (fun x => x == v) := rfl

theorem matchesMeta_contains_eq (mv : MetaValue) (v : String) :
    matchesMeta mv (some v) "contains" =
      (toValues mv).any (fun x => strIncludes (jsToLower x) (jsToLower v)) := rfl

theorem getMatchedValue_exact_eq (mv : MetaValue) (v : String) :
    getMatchedValue mv (some v) "exact" =
      truthyOr ((toValues mv).find? (fun x => x == v)) (truthyOr (toValues mv).head? "") := rfl

theorem getMatchedValue_contains_eq (mv : MetaValue) (v : String) :
    getMatchedValue mv (some v) "contains" =
      truthyOr ((toValues mv).find? (fun x => strIncludes (jsToLower x) (jsToLower v)))
        (truthyOr (toValues mv).head? "") := rfl

theorem matchesMeta_noValue (mv : MetaValue) (mode : String)
    (h : mode = "exact" ∨ mode = "contains") : matchesMeta mv none mode = false := by
  rcases h with h | h <;> subst h <;> rfl

theorem searchMetaEnts_alwaysFalse (key : String) (mode : String)
    (hf : ∀ mv, matchesMeta mv none mode = false) :
    ∀ (ents : List ElementData) (acc : List QMResult),
      searchMetaEnts key none mode ents acc = acc := by
  intro ents
  induction ents with
  | nil => intro acc; rfl
  | cons e rest ih =>
    intro acc
    by_cases hlim : resultsLimit ≤ acc.length
    · rw [searchMetaEnts, if_pos hlim]
    · cases hmv : getMeta e.metadata key with
      | none => rw [searchMetaEnts, if_neg hlim, hmv]; exact ih acc
      | some mv =>
        rw [searchMetaEnts, if_neg hlim, hmv]
        simp only [hf, Bool.false_eq_true, if_false]
        exact ih acc

theorem searchTagEnts_alwaysFalse (allOf anyOf noneOf : Option (List String))
    (hf : ∀ tags, matchesTags allOf anyOf noneOf tags = false) :
    ∀ (ents : List ElementData) (acc : List TagResult),
      searchTagEnts allOf anyOf noneOf ents acc = acc := by
  intro ents
  induction ents with
  | nil => intro acc; rfl
  | cons e rest ih =>
    intro acc
    rw [searchTagEnts]
    by_cases hlim : resultsLimit ≤ acc.length
    · rw [if_pos hlim]
    · rw [if_neg hlim, hf e.tags, if_neg (by simp)]; exact ih acc

theorem findElement_id {m : Model} {s : String} {e : ElementData}
    (h : m.findElement s = some e) : e.id = s := by
  have := List.find?_some h
  exact beq_iff_eq.mp this

theorem zodIntRange_spec (lo hi dflt v : Int) :
    ((zodIntRange lo hi dflt (some v)).isOk = true ↔ lo ≤ v ∧ v ≤ hi) ∧
    (lo ≤ v → v ≤ hi → zodIntRange lo hi dflt (some v) = .ok v) := by
  have hred : zodIntRange lo hi dflt (some v) =
      (if v < lo then .error "Number must be greater than or equal to minimum"
       else if hi < v then .error "Number must be less than or equal to maximum"
       else .ok v) := rfl
  rw [hred]
  constructor
  · split_ifs with h1 h2
    · simp only [Except.isOk]
      constructor
      · intro hfalse; exact absurd hfalse (by decide)
      · intro hc; omega
    · simp only [Except.isOk]
      constructor
      · intro hfalse; exact absurd hfalse (by decide)
      · intro hc; omega
    · simp only [Except.isOk]
      constructor
      · intro _; omega
      · intro _; rfl
  · intro ha hb
    rw [if_neg (by omega), if_neg (by omega)]

/-! ## Claim C2 -/

/-- Claim C2, counterexample: out-of-range numeric options are rejected by the
input schemas with a validation error, not silently capped — path `maxDepth`
6 and 0, subgraph `maxDepth` 101 and subgraph `maxNodes` 5001 all fail. -/
theorem clampNotReject_counterexample :
    pathMaxDepthSchema (some 6) =
      .error "Number must be less than or equal to maximum" ∧
    pathMaxDepthSchema (some 0) =
      .error "Number must be greater than or equal to minimum" ∧
    subgraphMaxDepthSchema (some 101) =
      .error "Number must be less than or equal to maximum" ∧
    subgraphMaxNodesSchema (some 5001) =
      .error "Number must be less than or equal to maximum" := by
  exact ⟨rfl, rfl, rfl, rfl⟩

/-- Claim C2, amended: each numeric option's schema accepts exactly the
documented range (path `maxDepth` in [1,5], subgraph `maxDepth` in [1,100],
subgraph `maxNodes` in [1,5000]), rejecting out-of-range values with a
validation error rather than capping them; schema-accepted values pass
through unchanged, and the handlers' additional `Math.min` clamps never alter
a schema-accepted value. -/
theorem schemaBounds_amended (v : Int) :
    ((pathMaxDepthSchema (some v)).isOk = true ↔ 1 ≤ v ∧ v ≤ 5) ∧
    (1 ≤ v → v ≤ 5 → pathMaxDepthSchema (some v) = .ok v ∧ min v.toNat 5 = v.toNat) ∧
    ((subgraphMaxDepthSchema (some v)).isOk = true ↔ 1 ≤ v ∧ v ≤ 100) ∧
    (1 ≤ v → v ≤ 100 → subgraphMaxDepthSchema (some v) = .ok v ∧ min v.toNat 100 = v.toNat) ∧
    ((subgraphMaxNodesSchema (some v)).isOk = true ↔ 1 ≤ v ∧ v ≤ 5000) ∧
    (1 ≤ v → v ≤ 5000 → subgraphMaxNodesSchema (some v) = .ok v ∧ min v.toNat 5000 = v.toNat) := by
  refine ⟨(zodIntRange_spec 1 5 3 v).1, ?_, (zodIntRange_spec 1 100 50 v).1, ?_,
    (zodIntRange_spec 1 5000 1000 v).1, ?_⟩
  · intro h1 h2
    exact ⟨(zodIntRange_spec 1 5 3 v).2 h1 h2, by omega⟩
  · intro h1 h2
    exact ⟨(zodIntRange_spec 1 100 50 v).2 h1 h2, by omega⟩
  · intro h1 h2
    exact ⟨(zodIntRange_spec 1 5000 1000 v).2 h1 h2, by omega⟩

/-- Witness for the amended C2 theorem at `v = 3`. -/
theorem schemaBounds_amended_witness :
    ((pathMaxDepthSchema (some 3)).isOk = true ↔ 1 ≤ (3 : Int) ∧ (3 : Int) ≤ 5) ∧
    (1 ≤ (3 : Int) → (3 : Int) ≤ 5 →
      pathMaxDepthSchema (some 3) = .ok 3 ∧ min (3 : Int).toNat 5 = (3 : Int).toNat) ∧
    ((subgraphMaxDepthSchema (some 3)).isOk = true ↔ 1 ≤ (3 : Int) ∧ (3 : Int) ≤ 100) ∧
    (1 ≤ (3 : Int) → (3 : Int) ≤ 100 →
      subgraphMaxDepthSchema (some 3) = .ok 3 ∧ min (3 : Int).toNat 100 = (3 : Int).toNat) ∧
    ((subgraphMaxNodesSchema (some 3)).isOk = true ↔ 1 ≤ (3 : Int) ∧ (3 : Int) ≤ 5000) ∧
    (1 ≤ (3 : Int) → (3 : Int) ≤ 5000 →
      subgraphMaxNodesSchema (some 3) = .ok 3 ∧ min (3 : Int).toNat 5000 = (3 : Int).toNat) :=
  schemaBounds_amended 3

/-! ## Claim C7 -/

/-- Claim C7, counterexample: with metadata value `["a", ""]` and search value
`""` in exact mode, the entity matches and the first list element satisfying
the predicate is `""`, but the reported matched value is `"a"` (the JS falsy
fallback `found || values[0] || ''` discards an empty-string match). -/
theorem matchedValue_counterexample :
    matchesMeta (MetaValue.arr ["a", ""]) (some "") "exact" = true ∧
    (toValues (MetaValue.arr ["a", ""])).find? (fun x => x == "") = some "" ∧
    getMatchedValue (MetaValue.arr ["a", ""]) (some "") "exact" = "a" ∧
    ("a" : String) ≠ "" := by
  exact ⟨by decide, by decide, by decide, by decide⟩

/-- Claim C7, amended: with the value treated as a list, `exact` matches iff
some element equals the search value (case-sensitive), `contains` iff some
element's lower-cased form has the lower-cased search value as a contiguous
substring, and `exists` always matches; the reported matched value is the
first element satisfying the predicate whenever that element is non-empty
(an empty-string match falls back through the JS `||` chain), and for
`exists` mode it is the first element (`''` when the list is empty). -/
theorem metadataMatcher_amended (mv : MetaValue) (v : String) :
    (matchesMeta mv (some v) "exact" = true ↔ ∃ x ∈ toValues mv, x = v) ∧
    (matchesMeta mv (some v) "contains" = true ↔
      ∃ x ∈ toValues mv, (jsToLower v).toList <:+: (jsToLower x).toList) ∧
    (∀ w : Option String, matchesMeta mv w "exists" = true) ∧
    (∀ w : String, (toValues mv).find? (fun x => x == v) = some w → w ≠ "" →
      getMatchedValue mv (some v) "exact" = w) ∧
    (∀ w : String,
      (toValues mv).find? (fun x => strIncludes (jsToLower x) (jsToLower v)) = some w → w ≠ "" →
      getMatchedValue mv (some v) "contains" = w) ∧
    (∀ w : Option String, getMatchedValue mv w "exists" = (toValues mv).headD "") := by
  refine ⟨?_, ?_, ?_, ?_, ?_, ?_⟩
  · rw [matchesMeta_exact_eq, List.any_eq_true]
    constructor
    · rintro ⟨x, hx, he⟩; exact ⟨x, hx, beq_iff_eq.mp he⟩
    · rintro ⟨x, hx, he⟩; exact ⟨x, hx, beq_iff_eq.mpr he⟩
  · rw [matchesMeta_contains_eq, List.any_eq_true]
    constructor
    · rintro ⟨x, hx, he⟩; exact ⟨x, hx, (subAt_iff _ _).mp he⟩
    · rintro ⟨x, hx, he⟩; exact ⟨x, hx, (subAt_iff _ _).mpr he⟩
  · intro w; rfl
  · intro w hfind hne
    rw [getMatchedValue_exact_eq, hfind]
    show (if w == "" then _ else w) = w
    rw [if_neg (by simpa using hne)]
  · intro w hfind hne
    rw [getMatchedValue_contains_eq, hfind]
    show (if w == "" then _ else w) = w
    rw [if_neg (by simpa using hne)]
  · intro w
    show truthyOr (toValues mv).head? "" = _
    exact truthyOr_head _

/-- Witness for the amended C7 theorem at a concrete metadata value and
search value. -/
theorem metadataMatcher_amended_witness :
    (matchesMeta (MetaValue.arr ["AWS Lambda"]) (some "aws") "contains" = true ↔
      ∃ x ∈ toValues (MetaValue.arr ["AWS Lambda"]),
        (jsToLower "aws").toList <:+: (jsToLower x).toList) ∧
    ((toValues (MetaValue.arr ["AWS Lambda"])).find?
        (fun x => strIncludes (jsToLower x) (jsToLower "aws")) = some "AWS Lambda" →
      "AWS Lambda" ≠ "" →
      getMatchedValue (MetaValue.arr ["AWS Lambda"]) (some "aws") "contains" = "AWS Lambda") ∧
    matchesMeta (MetaValue.arr ["AWS Lambda"]) (some "aws") "contains" = true ∧
    getMatchedValue (MetaValue.arr ["AWS Lambda"]) (some "aws") "contains" = "AWS Lambda" := by
  have h := metadataMatcher_amended (MetaValue.arr ["AWS Lambda"]) "aws"
  refine ⟨h.2.1, fun a b => h.2.2.2.2.1 "AWS Lambda" a b, by decide, ?_⟩
  exact h.2.2.2.2.1 "AWS Lambda" (by decide) (by decide)

/-! ## Claim C10 -/

/-- Claim C10: a query-by-metadata call in `exact` or `contains` mode with the
value parameter omitted succeeds (the handler performs no validation, so it is
total) and returns the empty result list: with no search value the `matches`
helper returns `false` for every entity. -/
theorem queryByMetadata_noValue (m : Model) (key : String) (mode : String)
    (h : mode = "exact" ∨ mode = "contains") :
    queryByMetadata m key none (some mode) = [] := by
  have hf := fun mv => matchesMeta_noValue mv mode h
  show (if (searchMetaEnts key none mode m.elements []).length < resultsLimit then
      searchMetaEnts key none mode m.deploymentElements
        (searchMetaEnts key none mode m.elements [])
    else searchMetaEnts key none mode m.elements []) = []
  rw [searchMetaEnts_alwaysFalse key mode hf, if_pos (by decide),
    searchMetaEnts_alwaysFalse key mode hf]

/-- Witness for C10: a concrete model with an entity carrying the queried key
still yields no matches when the value is omitted. -/
theorem queryByMetadata_noValue_witness :
    queryByMetadata
      { elements := [⟨"e1", "e1", "system", "E1", [],
          [("owner", MetaValue.str "team")], []⟩],
        deploymentElements := [], isAncestorOf := fun _ _ => false,
        outgoing := fun _ => [], incoming := fun _ => [] }
      "owner" none (some "exact") = [] :=
  queryByMetadata_noValue _ "owner" "exact" (Or.inl rfl)

/-! ## Claim C8 -/

/-- Claim C8: a tag occurring in both `allOf` and `noneOf` makes the tag
predicate unsatisfiable — no entity matches whatever its tag set — and the
query then returns zero matches (the `allOf` list being non-empty, the
at-least-one-condition invariant passes and the call succeeds with an empty
result list). -/
theorem tagConflict_unsatisfiable (allOf anyOf noneOf : Option (List String))
    (tg : String) (l1 l3 : List String)
    (h1 : allOf = some l1) (h2 : tg ∈ l1) (h3 : noneOf = some l3) (h4 : tg ∈ l3) :
    (∀ tags : List String, matchesTags allOf anyOf noneOf tags = false) ∧
    (∀ m : Model, queryByTags m allOf anyOf noneOf = .ok []) := by
  have hne1 : nonEmptyTagList allOf = true := by
    subst h1; cases l1 with
    | nil => cases h2
    | cons a l => simp [nonEmptyTagList]
  have hmf : ∀ tags : List String, matchesTags allOf anyOf noneOf tags = false := by
    intro tags
    unfold matchesTags
    by_cases hc : tags.contains tg
    · have hne3 : nonEmptyTagList noneOf = true := by
        subst h3; cases l3 with
        | nil => cases h4
        | cons a l => simp [nonEmptyTagList]
      rw [hne3]
      simp only [if_true]
      have : (noneOf.getD []).any (fun t => tags.contains t) = true := by
        rw [List.any_eq_true]
        exact ⟨tg, by rw [h3]; exact h4, hc⟩
      rw [this]
      simp
    · rw [hne1]
      simp only [if_true]
      have : (allOf.getD []).all (fun t => tags.contains t) = false := by
        rw [Bool.eq_false_iff]
        intro hall
        rw [List.all_eq_true] at hall
        exact hc (hall tg (by rw [h1]; exact h2))
      rw [this]
      simp
  refine ⟨hmf, fun m => ?_⟩
  unfold queryByTags
  rw [if_neg (by rw [hne1]; simp)]
  show Except.ok (if (searchTagEnts allOf anyOf noneOf m.elements []).length < resultsLimit
      then searchTagEnts allOf anyOf noneOf m.deploymentElements
        (searchTagEnts allOf anyOf noneOf m.elements [])
      else searchTagEnts allOf anyOf noneOf m.elements []) = Except.ok []
  rw [searchTagEnts_alwaysFalse _ _ _ hmf, if_pos (by decide),
    searchTagEnts_alwaysFalse _ _ _ hmf]

/-- Witness for C8 with the tag `public` in both `allOf` and `noneOf`, on an
entity carrying that tag. -/
theorem tagConflict_unsatisfiable_witness :
    (∀ tags : List String,
      matchesTags (some ["public"]) none (some ["public"]) tags = false) ∧
    (∀ m : Model, queryByTags m (some ["public"]) none (some ["public"]) = .ok []) :=
  tagConflict_unsatisfiable (some ["public"]) none (some ["public"]) "public"
    ["public"] ["public"] rfl (by decide) rfl (by decide)

/-- Unfolding of the path handler once source and target have resolved. -/
theorem findRelationshipPaths_found {m : Model} {s t : String} {es et : ElementData}
    (dArg : Nat) (hs : m.findElement s = some es) (ht : m.findElement t = some et) :
    findRelationshipPaths m s t dArg =
      (if es.id == et.id then
        .error "Source and target must be different elements"
      else if m.isAncestorOf es.id et.id || m.isAncestorOf et.id es.id then
        .error "Source and target cannot be in parent-child relationship (no relationship paths possible)"
      else
        .ok (sortByLen (rawPaths m es.id et.id (min dArg 5)))) := by
  unfold findRelationshipPaths
  rw [hs, ht]

/-! ## Claim C3 -/

/-- Claim C3: when source and target both resolve but are equal, or one is an
ancestor of the other, find-relationship-paths fails with the corresponding
invariant error; all validation occurs before the BFS is reached, so no
traversal happens and no partial result is produced. -/
theorem findRelationshipPaths_precondition (m : Model) (s t : String) (dArg : Nat)
    (es et : ElementData)
    (hs : m.findElement s = some es) (ht : m.findElement t = some et)
    (hbad : s = t ∨ m.isAncestorOf s t = true ∨ m.isAncestorOf t s = true) :
    ∃ msg : String, findRelationshipPaths m s t dArg = .error msg := by
  have hes : es.id = s := findElement_id hs
  have het : et.id = t := findElement_id ht
  rw [findRelationshipPaths_found dArg hs ht]
  by_cases heq : (es.id == et.id) = true
  · rw [if_pos heq]
    exact ⟨_, rfl⟩
  · rw [if_neg (by simpa using heq)]
    have hst : s ≠ t := by
      intro hc
      apply heq
      rw [hes, het, hc, beq_iff_eq]
    rcases hbad with hc | hanc | hanc
    · exact absurd hc hst
    · rw [hes, het, hanc]
      rw [if_pos (by simp)]
      exact ⟨_, rfl⟩
    · rw [hes, het, hanc]
      rw [if_pos (by simp)]
      exact ⟨_, rfl⟩

/-- Witness for C3: a two-element model where source is an ancestor of the
target. -/
theorem findRelationshipPaths_precondition_witness :
    ∃ msg : String,
      findRelationshipPaths
        { elements := [⟨"s", "s", "system", "S", [], [], []⟩,
            ⟨"s.c", "c", "component", "C", [], [], []⟩],
          deploymentElements := [], isAncestorOf := fun a b => a == "s" && b == "s.c",
          outgoing := fun _ => [], incoming := fun _ => [] }
        "s" "s.c" 3 = .error msg :=
  findRelationshipPaths_precondition _ "s" "s.c" 3 _ _ rfl rfl
    (Or.inr (Or.inl (by decide)))

/-! ## Sorting lemmas for the path post-processing -/

theorem insertByLen_mem (p : FoundPath) :
    ∀ (l : List FoundPath) (x : FoundPath), x ∈ insertByLen p l ↔ x = p ∨ x ∈ l := by
  intro l
  induction l with
  | nil => intro x; simp [insertByLen]
  | cons q qs ih =>
    intro x
    rw [insertByLen]
    split_ifs with h
    · rw [List.mem_cons, ih x, List.mem_cons]
      tauto
    · rw [List.mem_cons]

theorem insertByLen_sorted (p : FoundPath) :
    ∀ l : List FoundPath,
      List.Pairwise (fun a b => a.length ≤ b.length) l →
      List.Pairwise (fun a b => a.length ≤ b.length) (insertByLen p l) := by
  intro l
  induction l with
  | nil => intro _; simp [insertByLen]
  | cons q qs ih =>
    intro hp
    rw [List.pairwise_cons] at hp
    obtain ⟨hq, hqs⟩ := hp
    rw [insertByLen]
    split_ifs with h
    · rw [List.pairwise_cons]
      refine ⟨?_, ih hqs⟩
      intro b hb
      rcases (insertByLen_mem p qs b).mp hb with rfl | hb
      · omega
      · exact hq b hb
    · rw [List.pairwise_cons]
      constructor
      · intro b hb
        rcases List.mem_cons.mp hb with rfl | hb
        · omega
        · have := hq b hb; omega
      · rw [List.pairwise_cons]; exact ⟨hq, hqs⟩

theorem sortByLen_sorted :
    ∀ l : List FoundPath, List.Pairwise (fun a b => a.length ≤ b.length) (sortByLen l) := by
  intro l
  induction l with
  | nil => simp [sortByLen]
  | cons x xs ih => exact insertByLen_sorted x _ ih

theorem sortByLen_mem :
    ∀ (l : List FoundPath) (x : FoundPath), x ∈ sortByLen l ↔ x ∈ l := by
  intro l
  induction l with
  | nil => intro x; rfl
  | cons q qs ih =>
    intro x
    rw [sortByLen, insertByLen_mem, ih, List.mem_cons]

theorem insertByLen_filter (p : FoundPath) (n : Nat) :
    ∀ l : List FoundPath,
      (insertByLen p l).filter (fun q => q.length == n) =
        if p.length == n then p :: l.filter (fun q => q.length == n)
        else l.filter (fun q => q.length == n) := by
  intro l
  induction l with
  | nil =>
    by_cases hp : p.length = n
    · simp [insertByLen, List.filter_cons, hp]
    · simp [insertByLen, List.filter_cons, hp]
  | cons q qs ih =>
    rw [insertByLen]
    by_cases h : q.length < p.length
    · rw [if_pos h]
      by_cases hp : p.length = n
      · by_cases hq : q.length = n
        · omega
        · simp [List.filter_cons, ih, hp, hq]
      · by_cases hq : q.length = n
        · simp [List.filter_cons, ih, hp, hq]
        · simp [List.filter_cons, ih, hp, hq]
    · rw [if_neg h]
      by_cases hp : p.length = n
      · simp [List.filter_cons, hp]
      · simp [List.filter_cons, hp]

theorem sortByLen_filter (n : Nat) :
    ∀ l : List FoundPath,
      (sortByLen l).filter (fun q => q.length == n) = l.filter (fun q => q.length == n) := by
  intro l
  induction l with
  | nil => rfl
  | cons x xs ih =>
    rw [sortByLen, insertByLen_filter, List.filter_cons]
    by_cases hx : x.length = n
    · rw [if_pos (by simpa using hx), if_pos (by simpa using hx), ih]
    · rw [if_neg (by simpa using hx), if_neg (by simpa using hx), ih]

/-! ## Invariants of the path BFS -/

theorem expandStep_spec (s t : String) (maxDepth : Nat) (cur : PathNode)
    (hst : s ≠ t) (hinv : nodeInv s t cur) (hlen : cur.path.length < maxDepth)
    (acc : List FoundPath × List PathNode) (r : Relationship)
    (hg : ∀ p ∈ acc.1, goodPath s t maxDepth p)
    (hn : ∀ nd ∈ acc.2, nodeInv s t nd) :
    (∀ p ∈ (expandStep t cur acc r).1, goodPath s t maxDepth p) ∧
    (∀ nd ∈ (expandStep t cur acc r).2, nodeInv s t nd) := by
  obtain ⟨hnd, hsub, hsrc, hnt⟩ := hinv
  have htnotin : t ∉ s :: cur.path.map (fun st => st.target) := by
    intro hc
    rcases List.mem_cons.mp hc with hc | hc
    · exact hst hc.symm
    · exact hnt hc
  rw [expandStep]
  split_ifs with h1 h2
  · have ht : r.target = t := by simpa using h1
    refine ⟨?_, hn⟩
    intro p hp
    rcases List.mem_append.mp hp with hp | hp
    · exact hg p hp
    · have hp : p = { length := cur.path.length + 1, steps := cur.path ++ [mkPathStep r] } := by
        simpa using hp
      subst hp
      refine ⟨by simp, by simpa using hlen, ?_, ?_⟩
      · show (s :: ((cur.path ++ [mkPathStep r]).map (fun st => st.target))).Nodup
        rw [List.map_append]
        have hrt : (mkPathStep r).target = r.target := rfl
        show ((s :: cur.path.map (fun st => st.target)) ++ [(mkPathStep r).target]).Nodup
        rw [List.nodup_append]
        refine ⟨hnd, List.nodup_singleton _, ?_⟩
        intro a ha hat
        rw [hrt, ht, List.mem_singleton] at hat
        subst hat
        exact htnotin ha
      · show ((cur.path ++ [mkPathStep r]).map (fun st => st.target)).getLast? = some t
        rw [List.map_append]
        show ((cur.path.map (fun st => st.target)) ++ [(mkPathStep r).target]).getLast? = some t
        rw [List.getLast?_concat]
        rw [show (mkPathStep r).target = r.target from rfl, ht]
  · exact ⟨hg, hn⟩
  · refine ⟨hg, ?_⟩
    intro nd hnd2
    rcases List.mem_append.mp hnd2 with hnd2 | hnd2
    · exact hn nd hnd2
    · have hnd2 : nd = ⟨r.target, cur.path ++ [mkPathStep r], cur.visited ++ [r.target]⟩ := by
        simpa using hnd2
      subst hnd2
      have hrtne : r.target ≠ t := by simpa using h1
      have hrtnv : r.target ∉ cur.visited := by
        intro hc
        exact h2 (List.elem_iff.mpr hc)
      have hrt : (mkPathStep r).target = r.target := rfl
      refine ⟨?_, ?_, ?_, ?_⟩
      · show (s :: ((cur.path ++ [mkPathStep r]).map (fun st => st.target))).Nodup
        rw [List.map_append]
        show ((s :: cur.path.map (fun st => st.target)) ++ [(mkPathStep r).target]).Nodup
        rw [List.nodup_append]
        refine ⟨hnd, List.nodup_singleton _, ?_⟩
        intro a ha hat
        rw [hrt, List.mem_singleton] at hat
        subst hat
        rcases List.mem_cons.mp ha with hc | hc
        · exact hrtnv (hc ▸ hsrc)
        · exact hrtnv (hsub _ hc)
      · intro x hx
        rw [List.map_append] at hx
        rcases List.mem_append.mp hx with hx | hx
        · exact List.mem_append.mpr (Or.inl (hsub x hx))
        · rw [show List.map (fun st => st.target) [mkPathStep r] = [r.target] from rfl,
            List.mem_singleton] at hx
          subst hx
          exact List.mem_append.mpr (Or.inr (List.mem_singleton.mpr rfl))
      · exact List.mem_append.mpr (Or.inl hsrc)
      · intro hc
        rw [List.map_append] at hc
        rcases List.mem_append.mp hc with hc | hc
        · exact hnt hc
        · rw [show List.map (fun st => st.target) [mkPathStep r] = [r.target] from rfl,
            List.mem_singleton] at hc
          exact hrtne hc.symm

theorem expandFold_spec (s t : String) (maxDepth : Nat) (cur : PathNode)
    (hst : s ≠ t) (hinv : nodeInv s t cur) (hlen : cur.path.length < maxDepth) :
    ∀ (rels : List Relationship) (acc : List FoundPath × List PathNode),
      (∀ p ∈ acc.1, goodPath s t maxDepth p) →
      (∀ nd ∈ acc.2, nodeInv s t nd) →
      (∀ p ∈ (rels.foldl (expandStep t cur) acc).1, goodPath s t maxDepth p) ∧
      (∀ nd ∈ (rels.foldl (expandStep t cur) acc).2, nodeInv s t nd) := by
  intro rels
  induction rels with
  | nil => intro acc hg hn; exact ⟨hg, hn⟩
  | cons r rs ih =>
    intro acc hg hn
    rw [List.foldl_cons]
    obtain ⟨hg2, hn2⟩ := expandStep_spec s t maxDepth cur hst hinv hlen acc r hg hn
    exact ih _ hg2 hn2

theorem bfsPaths_good (m : Model) (s t : String) (maxDepth : Nat) (hst : s ≠ t) :
    ∀ (fuel : Nat) (queue : List PathNode) (found : List FoundPath),
      (∀ nd ∈ queue, nodeInv s t nd) →
      (∀ p ∈ found, goodPath s t maxDepth p) →
      ∀ p ∈ bfsPaths m t maxDepth fuel queue found, goodPath s t maxDepth p := by
  intro fuel
  induction fuel with
  | zero => intro queue found _ hf; exact hf
  | succ fuel ih =>
    intro queue found hq hf
    cases queue with
    | nil => exact hf
    | cons cur rest =>
      rw [bfsPaths]
      split_ifs with h1 h2
      · exact hf
      · exact ih rest found (fun nd hnd => hq nd (List.mem_cons_of_mem _ hnd)) hf
      · cases hel : m.findElement cur.elementId with
        | none =>
          exact ih rest found (fun nd hnd => hq nd (List.mem_cons_of_mem _ hnd)) hf
        | some el =>
          have hcur := hq cur (List.mem_cons_self _ _)
          have hlen : cur.path.length < maxDepth := by omega
          obtain ⟨hg2, hn2⟩ :=
            expandFold_spec s t maxDepth cur hst hcur hlen (m.outgoing el.id) ([], [])
              (fun p hp => absurd hp (List.not_mem_nil p))
              (fun nd hnd => absurd hnd (List.not_mem_nil nd))
          exact ih (rest ++ (expandRels t cur (m.outgoing el.id)).2)
            (found ++ (expandRels t cur (m.outgoing el.id)).1)
            (fun nd hnd => (List.mem_append.mp hnd).elim
              (fun hh => hq nd (List.mem_cons_of_mem _ hh)) (fun hh => hn2 nd hh))
            (fun p hp => (List.mem_append.mp hp).elim
              (fun hh => hf p hh) (fun hh => hg2 p hh))

/-- An accepted find-relationship-paths call returns the stable sort of the
BFS discovery list, and its validated source and target differ. -/
theorem findRelationshipPaths_ok {m : Model} {s t : String} {dArg : Nat} {ps : List FoundPath}
    (hok : findRelationshipPaths m s t dArg = .ok ps) :
    ps = sortByLen (rawPaths m s t (min dArg 5)) ∧ s ≠ t := by
  cases hs : m.findElement s with
  | none =>
    unfold findRelationshipPaths at hok
    rw [hs] at hok
    exact Except.noConfusion hok
  | some es =>
    cases ht : m.findElement t with
    | none =>
      unfold findRelationshipPaths at hok
      rw [hs, ht] at hok
      exact Except.noConfusion hok
    | some et =>
      rw [findRelationshipPaths_found dArg hs ht] at hok
      have hes := findElement_id hs
      have het := findElement_id ht
      split_ifs at hok with h1 h2
      have heq := Except.ok.inj hok
      constructor
      · rw [← heq, hes, het]
      · intro hc
        apply h1
        rw [hes, het, hc, beq_iff_eq]

/-! ## Claim C9 -/

/-- Claim C9: an accepted path result is sorted non-decreasingly by length,
and for every length the sublist of paths of that length equals the
corresponding sublist of the BFS discovery list — equal-length paths preserve
discovery order (stability). -/
theorem pathsSortedStable (m : Model) (s t : String) (dArg : Nat) (ps : List FoundPath)
    (hok : findRelationshipPaths m s t dArg = .ok ps) :
    List.Pairwise (fun a b => a.length ≤ b.length) ps ∧
    ∀ n : Nat, ps.filter (fun p => p.length == n) =
      (rawPaths m s t (min dArg 5)).filter (fun p => p.length == n) := by
  obtain ⟨hps, -⟩ := findRelationshipPaths_ok hok
  subst hps
  exact ⟨sortByLen_sorted _, fun n => sortByLen_filter n _⟩

/-- Witness for C9 on the model with a 1-hop and a 2-hop path. -/
theorem pathsSortedStable_witness :
    List.Pairwise (fun a b => a.length ≤ b.length)
      ((findRelationshipPaths mTwoPaths "s" "t" 3).toOption.getD []) ∧
    ∀ n : Nat,
      ((findRelationshipPaths mTwoPaths "s" "t" 3).toOption.getD []).filter
          (fun p => p.length == n) =
        (rawPaths mTwoPaths "s" "t" (min 3 5)).filter (fun p => p.length == n) :=
  pathsSortedStable mTwoPaths "s" "t" 3 _ rfl

/-! ## Claim C5 -/

/-- Claim C5, counterexample: under the indirect relationship attribution of
the Entity Store (spec section 4.2), a returned path need not be simple — in
the nested model the result contains the path `s.c → b → s.c → t`, whose
node sequence repeats `s.c` (the path-local visited set tracks only literal
step targets plus the query source, never the literal step sources that
indirect attribution introduces). -/
theorem pathSimple_counterexample :
    ¬ (∀ p ∈ (findRelationshipPaths mNested "s" "t" 3).toOption.getD [],
        (pathNodeIds p).Nodup) := by
  decide

/-- Claim C5, amended: every path in an accepted result has
`steps.length = length` and `length ≤ min maxDepth 5`, the query source
followed by the step targets is duplicate-free, and the destination occurs
exactly as the last step's target (so among the source and step targets the
destination appears only there); a step's literal source, however, may under
indirect attribution repeat another id of the path. -/
theorem pathShape_amended (m : Model) (s t : String) (dArg : Nat) (ps : List FoundPath)
    (hok : findRelationshipPaths m s t dArg = .ok ps) :
    ∀ p ∈ ps,
      p.steps.length = p.length ∧
      p.length ≤ min dArg 5 ∧
      (s :: p.steps.map (fun st => st.target)).Nodup ∧
      (p.steps.map (fun st => st.target)).getLast? = some t := by
  obtain ⟨hps, hst⟩ := findRelationshipPaths_ok hok
  subst hps
  intro p hp
  rw [sortByLen_mem] at hp
  exact bfsPaths_good m s t (min dArg 5) hst (pathsFuel m (min dArg 5))
    [⟨s, [], [s]⟩] []
    (fun nd hnd => by
      rw [List.mem_singleton] at hnd
      subst hnd
      exact ⟨by simp, by simp, by simp, by simp⟩)
    (fun p hp => absurd hp (List.not_mem_nil p))
    p hp

/-- Witness for the amended C5 theorem on the two-path model, instantiated at
the first returned path. -/
theorem pathShape_amended_witness :
    ((((findRelationshipPaths mTwoPaths "s" "t" 3).toOption.getD []).headD
        ⟨0, []⟩).steps.length =
      (((findRelationshipPaths mTwoPaths "s" "t" 3).toOption.getD []).headD ⟨0, []⟩).length) ∧
    ((((findRelationshipPaths mTwoPaths "s" "t" 3).toOption.getD []).headD
        ⟨0, []⟩).length ≤ min 3 5) ∧
    ("s" :: ((((findRelationshipPaths mTwoPaths "s" "t" 3).toOption.getD []).headD
        ⟨0, []⟩).steps.map (fun st => st.target))).Nodup ∧
    (((((findRelationshipPaths mTwoPaths "s" "t" 3).toOption.getD []).headD
        ⟨0, []⟩).steps.map (fun st => st.target)).getLast? = some "t") :=
  pathShape_amended mTwoPaths "s" "t" 3
    ((findRelationshipPaths mTwoPaths "s" "t" 3).toOption.getD []) rfl
    (((findRelationshipPaths mTwoPaths "s" "t" 3).toOption.getD []).headD ⟨0, []⟩)
    (by decide)

/-! ## Claim C1 -/

/-- Claim C1: the 100-path cap is only checked before dequeuing a frontier
node, not between the completed paths materialized inside one expansion; in
the multigraph model offering 101 valid paths (101 parallel edges), a single
expansion of the source materializes all 101, so the result has 101 paths —
more than `maxPaths`, contradicting both the claim and the handler's own
description of the limit. -/
theorem pathCap_overshoot :
    maxPaths = 100 ∧
    ((findRelationshipPaths mMulti "s" "t" 3).toOption.getD []).length = 101 := by
  constructor
  · rfl
  · decide

/-! ## Reachable-closure lemmas -/

theorem addNew_mem : ∀ (ys acc : List String) (z : String),
    z ∈ addNew acc ys ↔ z ∈ acc ∨ z ∈ ys := by
  intro ys
  induction ys with
  | nil => intro acc z; rw [addNew]; simp
  | cons y ys ih =>
    intro acc z
    rw [addNew]
    split_ifs with h
    · rw [ih, List.mem_cons]
      have hy : y ∈ acc := List.elem_iff.mp h
      constructor
      · rintro (hz | hz)
        · exact Or.inl hz
        · exact Or.inr (Or.inr hz)
      · rintro (hz | rfl | hz)
        · exact Or.inl hz
        · exact Or.inl hy
        · exact Or.inr hz
    · rw [ih, List.mem_append, List.mem_singleton, List.mem_cons]
      tauto

theorem addNew_nodup : ∀ (ys acc : List String), acc.Nodup → (addNew acc ys).Nodup := by
  intro ys
  induction ys with
  | nil => intro acc h; rw [addNew]; exact h
  | cons y ys ih =>
    intro acc h
    rw [addNew]
    split_ifs with hc
    · exact ih acc h
    · apply ih
      rw [List.nodup_append]
      refine ⟨h, List.nodup_singleton _, ?_⟩
      intro a ha hay
      rw [List.mem_singleton] at hay
      subst hay
      exact (fun hin => hc (List.elem_iff.mpr hin)) ha

theorem reachFold_mem (m : Model) : ∀ (l acc : List String) (z : String),
    z ∈ l.foldl (fun a x => addNew a (existingNeighborIds m x)) acc ↔
      z ∈ acc ∨ ∃ x ∈ l, z ∈ existingNeighborIds m x := by
  intro l
  induction l with
  | nil => intro acc z; simp
  | cons x xs ih =>
    intro acc z
    rw [List.foldl_cons, ih, addNew_mem]
    constructor
    · rintro ((hz | hz) | ⟨w, hw, hz⟩)
      · exact Or.inl hz
      · exact Or.inr ⟨x, List.mem_cons_self _ _, hz⟩
      · exact Or.inr ⟨w, List.mem_cons_of_mem _ hw, hz⟩
    · rintro (hz | ⟨w, hw, hz⟩)
      · exact Or.inl (Or.inl hz)
      · rcases List.mem_cons.mp hw with rfl | hw
        · exact Or.inl (Or.inr hz)
        · exact Or.inr ⟨w, hw, hz⟩

theorem reachFold_nodup (m : Model) : ∀ (l acc : List String),
    acc.Nodup → (l.foldl (fun a x => addNew a (existingNeighborIds m x)) acc).Nodup := by
  intro l
  induction l with
  | nil => intro acc h; exact h
  | cons x xs ih => intro acc h; rw [List.foldl_cons]; exact ih _ (addNew_nodup _ _ h)

theorem reachStep_mem (m : Model) (cur : List String) (z : String) :
    z ∈ reachStep m cur ↔ z ∈ cur ∨ ∃ x ∈ cur, z ∈ existingNeighborIds m x :=
  reachFold_mem m cur cur z

theorem reachComp_nodup (m : Model) (z : String) : ∀ d : Nat, (reachComp m z d).Nodup := by
  intro d
  induction d with
  | zero =>
    rw [reachComp]
    split_ifs
    · exact List.nodup_singleton _
    · exact List.nodup_nil
  | succ d ih => rw [reachComp]; exact reachFold_nodup m _ _ ih

theorem reachComp_subset_succ (m : Model) (z : String) (d : Nat) :
    ∀ e ∈ reachComp m z d, e ∈ reachComp m z (d + 1) := by
  intro e he
  rw [reachComp, reachStep_mem]
  exact Or.inl he

theorem reachComp_mono (m : Model) (z : String) {d d2 : Nat} (h : d ≤ d2) :
    ∀ e ∈ reachComp m z d, e ∈ reachComp m z d2 := by
  induction d2, h using Nat.le_induction with
  | base => intro e he; exact he
  | succ n hmn ih => intro e he; exact reachComp_subset_succ m z n e (ih e he)

theorem reachComp_isSome (m : Model) (z : String) :
    ∀ (d : Nat) (e : String), e ∈ reachComp m z d → (m.findElement e).isSome = true := by
  intro d
  induction d with
  | zero =>
    intro e he
    rw [reachComp] at he
    split_ifs at he with h
    · rw [List.mem_singleton] at he; subst he; exact h
    · exact absurd he (List.not_mem_nil e)
  | succ d ih =>
    intro e he
    rw [reachComp, reachStep_mem] at he
    rcases he with he | ⟨x, hx, he⟩
    · exact ih e he
    · exact (List.mem_filter.mp he).2

theorem reachComp_empty (m : Model) (z : String)
    (h : ¬ (m.findElement z).isSome = true) : ∀ d : Nat, reachComp m z d = [] := by
  intro d
  induction d with
  | zero => rw [reachComp, if_neg h]
  | succ d ih => rw [reachComp, ih]; rfl

theorem reachComp_self (m : Model) (z : String) (h : (m.findElement z).isSome = true)
    (d : Nat) : z ∈ reachComp m z d := by
  apply reachComp_mono m z (Nat.zero_le d)
  rw [reachComp, if_pos h]
  exact List.mem_singleton.mpr rfl

theorem reachComp_step (m : Model) (s : String) {x y : String} {d : Nat}
    (hx : x ∈ reachComp m s d) (hy : y ∈ existingNeighborIds m x) :
    y ∈ reachComp m s (d + 1) := by
  rw [reachComp, reachStep_mem]
  exact Or.inr ⟨x, hx, hy⟩

theorem reachComp_trans (m : Model) (s : String) :
    ∀ (k : Nat) (x e : String) (dx : Nat),
      x ∈ reachComp m s dx → e ∈ reachComp m x k → e ∈ reachComp m s (dx + k) := by
  intro k
  induction k with
  | zero =>
    intro x e dx hx he
    rw [reachComp] at he
    split_ifs at he with h
    · rw [List.mem_singleton] at he; subst he; exact hx
    · exact absurd he (List.not_mem_nil e)
  | succ k ih =>
    intro x e dx hx he
    rw [reachComp, reachStep_mem] at he
    rcases he with he | ⟨w, hw, hnb⟩
    · exact reachComp_subset_succ m s _ e (ih x e dx hx he)
    · exact reachComp_step m s (ih x w dx hx hw) hnb

/-- Everything reachable from a stored node is, at matching depth budget,
either already stored (at a depth no larger than the budget) or reachable
from a pending queue entry within the remaining budget. -/
theorem coverLemma (m : Model) (start : String) (maxDepth : Nat)
    (q : List (String × Nat)) (visited : List String) (nodes : List (String × SubNode))
    (halign : nodes.map Prod.fst = visited)
    (hrec : ∀ p ∈ nodes,
      (m.findElement p.1).isSome = true ∧ p.2.depth ≤ maxDepth ∧
      p.1 ∈ reachComp m start p.2.depth ∧
      ∀ d, d < p.2.depth → p.1 ∉ reachComp m start d)
    (hclob : ∀ p ∈ nodes, ∀ y ∈ existingNeighborIds m p.1,
      maxDepth < p.2.depth + 1 ∨ y ∈ visited ∨ ∃ dy, dy ≤ p.2.depth + 1 ∧ (y, dy) ∈ q) :
    ∀ (k : Nat) (x : String) (nd : SubNode) (e : String),
      (x, nd) ∈ nodes → e ∈ reachComp m x k → nd.depth + k ≤ maxDepth →
      (∃ nd2 : SubNode, (e, nd2) ∈ nodes ∧ nd2.depth ≤ nd.depth + k) ∨
      (∃ z dz, (z, dz) ∈ q ∧ dz ≤ nd.depth + k ∧ e ∈ reachComp m z (nd.depth + k - dz)) := by
  intro k
  induction k with
  | zero =>
    intro x nd e hx he hb
    have hsome := (hrec (x, nd) hx).1
    rw [reachComp, if_pos hsome, List.mem_singleton] at he
    subst he
    exact Or.inl ⟨nd, hx, by omega⟩
  | succ k ih =>
    intro x nd e hx he hb
    rw [reachComp, reachStep_mem] at he
    rcases he with he | ⟨w, hw, hnb⟩
    · rcases ih x nd e hx he (by omega) with ⟨nd2, h1, h2⟩ | ⟨z, dz, hz, hdz, hr⟩
      · exact Or.inl ⟨nd2, h1, by omega⟩
      · exact Or.inr ⟨z, dz, hz, by omega,
          reachComp_mono m z (by omega) e hr⟩
    · rcases ih x nd w hx hw (by omega) with ⟨ndw, h1, h2⟩ | ⟨z, dz, hz, hdz, hr⟩
      · rcases hclob (w, ndw) h1 e hnb with hgt | hv | ⟨dy, hdy, hq⟩
        · have hgt2 : maxDepth < ndw.depth + 1 := hgt
          exact absurd hgt2 (by omega)
        · rw [← halign] at hv
          obtain ⟨p, hp, hpe⟩ := List.mem_map.mp hv
          have hpmem : (e, p.2) ∈ nodes := by
            have hpp : p = (e, p.2) := by
              rw [← hpe]
            rw [← hpp]
            exact hp
          left
          refine ⟨p.2, hpmem, ?_⟩
          have hwreach : w ∈ reachComp m start ndw.depth := (hrec (w, ndw) h1).2.2.1
          have hereach : e ∈ reachComp m start (ndw.depth + 1) :=
            reachComp_step m start hwreach hnb
          have hmin : ∀ d, d < p.2.depth → e ∉ reachComp m start d :=
            (hrec (e, p.2) hpmem).2.2.2
          by_contra hgt2
          exact hmin (ndw.depth + 1) (by omega) hereach
        · have hdy2 : dy ≤ ndw.depth + 1 := hdy
          right
          refine ⟨e, dy, hq, by omega, ?_⟩
          have hesome : (m.findElement e).isSome = true := (List.mem_filter.mp hnb).2
          exact reachComp_self m e hesome _
      · right
        refine ⟨z, dz, hz, by omega, ?_⟩
        have h1 : e ∈ reachComp m z (nd.depth + k - dz + 1) := reachComp_step m z hr hnb
        have harith : nd.depth + k - dz + 1 = nd.depth + (k + 1) - dz := by omega
        rw [harith] at h1
        exact h1

/-- A finished-run guarantee for the tail of the queue extends to the full
queue once the dropped head is separately accounted for. -/
theorem subOutLiftTail {m : Model} {start : String} {maxDepth maxNodes : Nat}
    {hd : String × Nat} {rest : List (String × Nat)} {visited : List String} {o : SubLoopOut}
    (h : SubOut m start maxDepth maxNodes rest visited o)
    (hhd : o.truncated = false → hd.2 ≤ maxDepth → (m.findElement hd.1).isSome = true →
      hd.1 ∈ o.visited) :
    SubOut m start maxDepth maxNodes (hd :: rest) visited o :=
  { align := h.align, nodup := h.nodup, vlen := h.vlen, mono := h.mono, recok := h.recok,
    trunc_count := h.trunc_count,
    complete_q := fun htr it hit => by
      rcases List.mem_cons.mp hit with heq2 | hit2
      · subst heq2
        exact fun hle hsome => hhd htr hle hsome
      · exact h.complete_q htr it hit2,
    complete_nb := h.complete_nb,
    startout := h.startout }

/-- The state invariant survives dropping the queue head, given a discharge
of the neighbor obligations that pointed at the head and a refutation of the
initial-state description. -/
theorem subInvTail {m : Model} {start : String} {maxDepth maxNodes : Nat}
    {e0 : String} {d0 : Nat} {rest : List (String × Nat)} {visited : List String}
    {nodes : List (String × SubNode)}
    (hinv : SubInv m start maxDepth maxNodes ((e0, d0) :: rest) visited nodes)
    (hdis : ∀ p ∈ nodes, ∀ y ∈ existingNeighborIds m p.1,
      p.2.depth + 1 ≤ maxDepth → y = e0 → d0 ≤ p.2.depth + 1 → y ∈ visited)
    (hst2 : (m.findElement start).isSome = true →
      ¬(nodes = [] ∧ visited = [] ∧ (e0, d0) :: rest = [(start, 0)])) :
    SubInv m start maxDepth maxNodes rest visited nodes :=
  { align := hinv.align, nodup := hinv.nodup, vlen := hinv.vlen,
    qok := hinv.qok.tail,
    qsound := fun it hit => hinv.qsound it (List.mem_cons_of_mem _ hit),
    recok := hinv.recok,
    clob := fun p hp y hy => by
      rcases hinv.clob p hp y hy with hb | hv | ⟨dy, hdy, hmem⟩
      · exact Or.inl hb
      · exact Or.inr (Or.inl hv)
      · rcases List.mem_cons.mp hmem with he | hmem2
        · have hy0 : y = e0 := congrArg Prod.fst he
          have hd0 : dy = d0 := congrArg Prod.snd he
          by_cases hbd : maxDepth < p.2.depth + 1
          · exact Or.inl hbd
          · exact Or.inr (Or.inl (hdis p hp y hy (by omega) hy0 (by omega)))
        · exact Or.inr (Or.inr ⟨dy, hdy, hmem2⟩),
    startok := fun hsome => by
      rcases hinv.startok hsome with hini | hrec2
      · exact absurd hini (hst2 hsome)
      · exact Or.inr hrec2 }

/-- Main invariant theorem for the incomers BFS loop: from any state
satisfying `SubInv`, the loop's result satisfies `SubOut`. -/
theorem subLoop_spec (m : Model) (start : String) (maxDepth maxNodes : Nat) :
    ∀ (q : List (String × Nat)) (visited : List String)
      (nodes : List (String × SubNode)) (amd : Nat),
      SubInv m start maxDepth maxNodes q visited nodes →
      SubOut m start maxDepth maxNodes q visited
        (subLoop m maxDepth maxNodes q visited nodes amd) := by
  intro q visited nodes amd
  induction q, visited, nodes, amd using subLoop.induct m maxDepth maxNodes with
  | case1 visited nodes amd =>
    intro hinv
    rw [subLoop]
    refine
      { align := hinv.align, nodup := hinv.nodup, vlen := hinv.vlen,
        mono := fun x hx => hx, recok := hinv.recok,
        trunc_count := fun htr => absurd htr (by simp),
        complete_q := fun _ it hit => absurd hit (List.not_mem_nil it),
        complete_nb := fun _ p hp y hy hle => ?_,
        startout := fun _ hsome => ?_ }
    · rcases hinv.clob p hp y hy with hb | hv | ⟨dy, hdy, hmem⟩
      · exact absurd hb (by omega)
      · exact hv
      · exact absurd hmem (List.not_mem_nil _)
    · rcases hinv.startok hsome with ⟨hno, hv, hq⟩ | hr
      · exact absurd hq (by simp)
      · exact hr
  | case2 elementId depth rest visited nodes amd h1 ih =>
    intro hinv
    rw [subLoop, if_pos h1]
    have hinv2 : SubInv m start maxDepth maxNodes rest visited nodes := by
      refine subInvTail hinv ?_ ?_
      · intro p hp y hy hble hy0 hdle
        exact absurd hble (by omega)
      · intro hsome hc
        obtain ⟨hn, hv, hq⟩ := hc
        simp only [List.cons.injEq, Prod.mk.injEq] at hq
        omega
    exact subOutLiftTail (ih hinv2) (fun _ hle _ => absurd hle (by omega))
  | case3 elementId depth rest visited nodes amd h1 h2 ih =>
    intro hinv
    rw [subLoop, if_neg h1, if_pos h2]
    have hmemv : elementId ∈ visited := List.elem_iff.mp h2
    have hinv2 : SubInv m start maxDepth maxNodes rest visited nodes := by
      refine subInvTail hinv ?_ ?_
      · intro p hp y hy hble hy0 hdle
        rw [hy0]
        exact hmemv
      · intro hsome hc
        obtain ⟨hn, hv, hq⟩ := hc
        rw [hv] at hmemv
        exact absurd hmemv (List.not_mem_nil _)
    exact subOutLiftTail (ih hinv2) (fun htr _ _ => (ih hinv2).mono elementId hmemv)
  | case4 elementId depth rest visited nodes amd h1 h2 h3 =>
    intro hinv
    rw [subLoop, if_neg h1, if_neg h2, if_pos h3]
    refine
      { align := hinv.align, nodup := hinv.nodup, vlen := hinv.vlen,
        mono := fun x hx => hx, recok := hinv.recok,
        trunc_count := fun _ => ?_,
        complete_q := fun htr => absurd htr (by simp),
        complete_nb := fun htr => absurd htr (by simp),
        startout := fun hn hsome => ?_ }
    · show visited.length = maxNodes
      have := hinv.vlen
      omega
    · rcases hinv.startok hsome with ⟨hno, hv, hq⟩ | hr
      · rw [hv] at h3
        simp at h3
        omega
      · exact hr
  | case5 elementId depth rest visited nodes amd h1 h2 h3 heq ih =>
    intro hinv
    rw [subLoop, if_neg h1, if_neg h2, if_neg h3, heq]
    have hinv2 : SubInv m start maxDepth maxNodes rest visited nodes := by
      refine subInvTail hinv ?_ ?_
      · intro p hp y hy hble hy0 hdle
        have hsome := (List.mem_filter.mp hy).2
        rw [hy0, heq] at hsome
        exact absurd hsome (by simp)
      · intro hsome hc
        obtain ⟨hn, hv, hq⟩ := hc
        simp only [List.cons.injEq, Prod.mk.injEq] at hq
        rw [hq.1.1] at heq
        rw [heq] at hsome
        exact absurd hsome (by simp)
    refine subOutLiftTail (ih hinv2) ?_
    intro _ _ hsome
    rw [heq] at hsome
    exact absurd hsome (by simp)
  | case6 elementId depth rest visited nodes amd h1 h2 h3 el heq visited2 incomersData2 nodes2 newItems2 ih =>
    intro hinv
    rw [subLoop, if_neg h1, if_neg h2, if_neg h3, heq]
    have hdep : depth ≤ maxDepth := by omega
    have hnotv : elementId ∉ visited := fun hc => h2 (List.elem_iff.mpr hc)
    have hlt : visited.length < maxNodes := by omega
    have hsomeE : (m.findElement elementId).isSome = true := by rw [heq]; rfl
    have hreachE : elementId ∈ reachComp m start depth :=
      hinv.qsound (elementId, depth) (List.mem_cons_self _ _) hsomeE
    have hminE : ∀ d, d < depth → elementId ∉ reachComp m start d := by
      intro d hd hmem
      have hsomeS : (m.findElement start).isSome = true := by
        by_contra hs
        rw [reachComp_empty m start hs d] at hmem
        exact List.not_mem_nil _ hmem
      rcases hinv.startok hsomeS with ⟨hn, hv, hq⟩ | ⟨nd0, h0m, h0d⟩
      · simp only [List.cons.injEq, Prod.mk.injEq] at hq
        omega
      · rcases coverLemma m start maxDepth ((elementId, depth) :: rest) visited nodes
          hinv.align hinv.recok hinv.clob d start nd0 elementId h0m hmem (by omega) with
          ⟨nd2, h2m, h2d⟩ | ⟨z, dz, hzq, hdz, hzr⟩
        · apply hnotv
          rw [← hinv.align]
          exact List.mem_map.mpr ⟨(elementId, nd2), h2m, rfl⟩
        · rcases List.mem_cons.mp hzq with hhd | hrest
          · have hzd : dz = depth := congrArg Prod.snd hhd
            omega
          · have hrel := (List.pairwise_cons.mp hinv.qok).1 (z, dz) hrest
            have hrel1 : depth ≤ dz := hrel.1
            omega
    -- the new state
    have hinv2 : SubInv m start maxDepth maxNodes
        (rest ++ (List.map (fun i => (i.elementId, depth + 1))
          (List.filter (fun i => !(visited ++ [elementId]).contains i.elementId)
            (List.map mkIncomerData (m.incoming elementId)))))
        (visited ++ [elementId])
        (nodes ++ [(elementId, mkSubNode el (List.map mkIncomerData (m.incoming elementId)) depth)]) := by
      have hni : ∀ it ∈ (List.map (fun i => (i.elementId, depth + 1))
          (List.filter (fun i => !(visited ++ [elementId]).contains i.elementId)
            (List.map mkIncomerData (m.incoming elementId)))),
          it.2 = depth + 1 := by
        intro it hit
        obtain ⟨i, hi, hie⟩ := List.mem_map.mp hit
        rw [← hie]
      have hnewSound : ∀ it ∈ (List.map (fun i => (i.elementId, depth + 1))
          (List.filter (fun i => !(visited ++ [elementId]).contains i.elementId)
            (List.map mkIncomerData (m.incoming elementId)))),
          (m.findElement it.1).isSome = true → it.1 ∈ reachComp m start it.2 := by
        intro it hit hsome
        obtain ⟨i, hi, hie⟩ := List.mem_map.mp hit
        obtain ⟨himem, -⟩ := List.mem_filter.mp hi
        obtain ⟨r, hr, hri⟩ := List.mem_map.mp himem
        have hiel : i.elementId = r.source := by
          rw [← hri]
          rfl
        have hit1 : it.1 = r.source := by rw [← hie, hiel]
        have hit2 : it.2 = depth + 1 := by rw [← hie]
        rw [hit1] at hsome
        have hnb : r.source ∈ existingNeighborIds m elementId :=
          List.mem_filter.mpr ⟨List.mem_map.mpr ⟨r, hr, rfl⟩, hsome⟩
        rw [hit1, hit2]
        exact reachComp_step m start hreachE hnb
      refine
        { align := ?_, nodup := ?_, vlen := ?_, qok := ?_, qsound := ?_,
          recok := ?_, clob := ?_, startok := ?_ }
      · rw [List.map_append, hinv.align]
        rfl
      · rw [List.nodup_append]
        refine ⟨hinv.nodup, List.nodup_singleton _, ?_⟩
        intro a ha hae
        rw [List.mem_singleton] at hae
        subst hae
        exact hnotv ha
      · rw [List.length_append]
        simp only [List.length_singleton]
        omega
      · rw [List.pairwise_append]
        refine ⟨hinv.qok.tail, ?_, ?_⟩
        · apply List.pairwise_of_forall_mem_list
          intro a ha b hb
          rw [hni a ha, hni b hb]
          omega
        · intro a ha b hb
          have hrel := (List.pairwise_cons.mp hinv.qok).1 a ha
          have hrel1 : depth ≤ a.2 := hrel.1
          have hrel2 : a.2 ≤ depth + 1 := hrel.2
          rw [hni b hb]
          omega
      · intro it hit
        rcases List.mem_append.mp hit with hit2 | hit2
        · exact hinv.qsound it (List.mem_cons_of_mem _ hit2)
        · exact hnewSound it hit2
      · intro p hp
        rcases List.mem_append.mp hp with hp2 | hp2
        · exact hinv.recok p hp2
        · have hpe : p = (elementId,
              mkSubNode el (List.map mkIncomerData (m.incoming elementId)) depth) := by
            simpa using hp2
          subst hpe
          exact ⟨hsomeE, hdep, hreachE, hminE⟩
      · intro p hp y hy
        rcases List.mem_append.mp hp with hp2 | hp2
        · rcases hinv.clob p hp2 y hy with hb | hv | ⟨dy, hdy, hmem⟩
          · exact Or.inl hb
          · exact Or.inr (Or.inl (List.mem_append.mpr (Or.inl hv)))
          · rcases List.mem_cons.mp hmem with he | hmem2
            · have hy0 : y = elementId := congrArg Prod.fst he
              refine Or.inr (Or.inl ?_)
              rw [hy0]
              exact List.mem_append.mpr (Or.inr (List.mem_singleton.mpr rfl))
            · exact Or.inr (Or.inr ⟨dy, hdy, List.mem_append.mpr (Or.inl hmem2)⟩)
        · have hpe : p = (elementId,
              mkSubNode el (List.map mkIncomerData (m.incoming elementId)) depth) := by
            simpa using hp2
          subst hpe
          show maxDepth < depth + 1 ∨ _ ∨ _
          by_cases hbd : maxDepth < depth + 1
          · exact Or.inl hbd
          · by_cases hyv : y ∈ visited ++ [elementId]
            · exact Or.inr (Or.inl hyv)
            · refine Or.inr (Or.inr ⟨depth + 1, Nat.le_refl (depth + 1), ?_⟩)
              obtain ⟨hymem, hysome⟩ := List.mem_filter.mp hy
              obtain ⟨r, hr, hrs⟩ := List.mem_map.mp hymem
              have hcont : (visited ++ [elementId]).contains y = false := by
                rcases hcy : (visited ++ [elementId]).contains y with hfalse | htrue
                · rfl
                · exact absurd (List.elem_iff.mp hcy) hyv
              apply List.mem_append.mpr
              refine Or.inr (List.mem_map.mpr ⟨mkIncomerData r, ?_, ?_⟩)
              · refine List.mem_filter.mpr ⟨List.mem_map.mpr ⟨r, hr, rfl⟩, ?_⟩
                show (!((visited ++ [elementId]).contains (mkIncomerData r).elementId)) = true
                have : (mkIncomerData r).elementId = r.source := rfl
                rw [this, hrs, hcont]
                rfl
              · have : (mkIncomerData r).elementId = r.source := rfl
                rw [this, hrs]
      · intro hsome
        rcases hinv.startok hsome with ⟨hn, hv, hq⟩ | ⟨nd0, h0m, h0d⟩
        · simp only [List.cons.injEq, Prod.mk.injEq] at hq
          obtain ⟨⟨hes, hd0⟩, hrz⟩ := hq
          refine Or.inr ⟨mkSubNode el (List.map mkIncomerData (m.incoming elementId)) depth,
            ?_, ?_⟩
          · rw [← hes]
            exact List.mem_append.mpr (Or.inr (List.mem_singleton.mpr rfl))
          · show depth = 0
            omega
        · exact Or.inr ⟨nd0, List.mem_append.mpr (Or.inl h0m), h0d⟩
    have hout := ih hinv2
    refine
      { align := hout.align, nodup := hout.nodup, vlen := hout.vlen,
        mono := fun x hx => hout.mono x (List.mem_append.mpr (Or.inl hx)),
        recok := hout.recok, trunc_count := hout.trunc_count,
        complete_q := fun htr it hit => ?_,
        complete_nb := hout.complete_nb,
        startout := hout.startout }
    rcases List.mem_cons.mp hit with heq2 | hit2
    · subst heq2
      intro _ _
      exact hout.mono elementId (List.mem_append.mpr (Or.inr (List.mem_singleton.mpr rfl)))
    · exact hout.complete_q htr it (List.mem_append.mpr (Or.inl hit2))

/-- Unfolding of the incomers handler once the start element has resolved. -/
theorem queryIncomersGraph_found {m : Model} {elementId : String} {e0 : ElementData}
    (dArg nArg : Nat) (hfe : m.findElement elementId = some e0) :
    queryIncomersGraph m elementId dArg nArg =
      .ok { target := elementId,
            totalNodes :=
              (subLoop m (min dArg 100) (min nArg 5000) [(elementId, 0)] [] [] 0).visited.length,
            maxDepth :=
              (subLoop m (min dArg 100) (min nArg 5000) [(elementId, 0)] [] [] 0).actualMaxDepth,
            truncated :=
              (subLoop m (min dArg 100) (min nArg 5000) [(elementId, 0)] [] [] 0).truncated,
            nodes :=
              (subLoop m (min dArg 100) (min nArg 5000) [(elementId, 0)] [] [] 0).nodes } := by
  unfold queryIncomersGraph
  rw [hfe]

/-- The invariant holds at the handler's initial loop state. -/
theorem subInvInit (m : Model) (start : String) (maxDepth maxNodes : Nat) :
    SubInv m start maxDepth maxNodes [(start, 0)] [] [] :=
  { align := rfl, nodup := List.nodup_nil, vlen := Nat.zero_le _,
    qok := by simp,
    qsound := fun it hit hsome => by
      rw [List.mem_singleton] at hit
      subst hit
      exact reachComp_self m start hsome 0,
    recok := fun p hp => absurd hp (List.not_mem_nil p),
    clob := fun p hp => absurd hp (List.not_mem_nil p),
    startok := fun _ => Or.inl ⟨rfl, rfl, rfl⟩ }

/-- On an untruncated run from the initial state, every entity of the
reachable closure within the depth bound has been visited. -/
theorem closureVisited (m : Model) (start : String) (maxDepth maxNodes : Nat)
    {o : SubLoopOut}
    (hout : SubOut m start maxDepth maxNodes [(start, 0)] [] o)
    (htr : o.truncated = false) :
    ∀ d, d ≤ maxDepth → ∀ e ∈ reachComp m start d, e ∈ o.visited := by
  intro d
  induction d with
  | zero =>
    intro hd e he
    by_cases hs : (m.findElement start).isSome = true
    · rw [reachComp, if_pos hs, List.mem_singleton] at he
      rw [he]
      exact hout.complete_q htr (start, 0) (List.mem_singleton.mpr rfl) hd hs
    · rw [reachComp, if_neg hs] at he
      exact absurd he (List.not_mem_nil e)
  | succ d ihd =>
    intro hd e he
    rw [reachComp, reachStep_mem] at he
    rcases he with he | ⟨w, hw, hnb⟩
    · exact ihd (by omega) e he
    · have hwv : w ∈ o.visited := ihd (by omega) w hw
      rw [← hout.align] at hwv
      obtain ⟨p, hp, hpe⟩ := List.mem_map.mp hwv
      have hpmem : (w, p.2) ∈ o.nodes := by
        have hpp : p = (w, p.2) := by rw [← hpe]
        rw [← hpp]
        exact hp
      have hmin : ∀ dd, dd < p.2.depth → w ∉ reachComp m start dd :=
        (hout.recok (w, p.2) hpmem).2.2.2
      have hdle : p.2.depth ≤ d := by
        by_contra hgt
        exact hmin d (by omega) hw
      exact hout.complete_nb htr (w, p.2) hpmem e hnb
        (show p.2.depth + 1 ≤ maxDepth by omega)

/-! ## Claim C4 -/

/-- Claim C4: an accepted incomers-subgraph result never stores more than the
effective `maxNodes` entities, and whenever the reachable closure within the
effective `maxDepth` is strictly larger than `maxNodes`, the run is truncated
with exactly `maxNodes` visited entities and exactly `maxNodes` stored nodes
(so the entity that triggered the stop was not added). -/
theorem subgraphNodeBound (m : Model) (elementId : String) (dArg nArg : Nat) (r : SubResult)
    (hok : queryIncomersGraph m elementId dArg nArg = .ok r) :
    r.totalNodes ≤ min nArg 5000 ∧
    (min nArg 5000 < (reachComp m elementId (min dArg 100)).length →
      r.truncated = true ∧ r.totalNodes = min nArg 5000 ∧ r.nodes.length = min nArg 5000) := by
  cases hfe : m.findElement elementId with
  | none =>
    unfold queryIncomersGraph at hok
    rw [hfe] at hok
    exact Except.noConfusion hok
  | some e0 =>
    rw [queryIncomersGraph_found dArg nArg hfe] at hok
    have hr := Except.ok.inj hok
    subst hr
    have hout := subLoop_spec m elementId (min dArg 100) (min nArg 5000)
      [(elementId, 0)] [] [] 0 (subInvInit m elementId (min dArg 100) (min nArg 5000))
    refine ⟨hout.vlen, ?_⟩
    intro hbig
    by_cases htr :
      (subLoop m (min dArg 100) (min nArg 5000) [(elementId, 0)] [] [] 0).truncated = true
    · refine ⟨htr, hout.trunc_count htr, ?_⟩
      have halen := congrArg List.length hout.align
      rw [List.length_map] at halen
      show (subLoop m (min dArg 100) (min nArg 5000) [(elementId, 0)] [] [] 0).nodes.length =
        min nArg 5000
      rw [halen]
      exact hout.trunc_count htr
    · have htr2 :
        (subLoop m (min dArg 100) (min nArg 5000) [(elementId, 0)] [] [] 0).truncated = false :=
        Bool.eq_false_iff.mpr htr
      have hsub := closureVisited m elementId (min dArg 100) (min nArg 5000) hout htr2
        (min dArg 100) (Nat.le_refl _)
      have hnd := reachComp_nodup m elementId (min dArg 100)
      have hlen := (List.Nodup.subperm hnd hsub).length_le
      have hvl := hout.vlen
      exact absurd hbig (by omega)

/-- Witness for C4 on the incomers model: with `maxNodes = 1` and a closure
of size 2 the run truncates at exactly one stored node. -/
theorem subgraphNodeBound_witness :
    ((queryIncomersGraph mIncomers "a" 1 1).toOption.getD
        ⟨"", 0, 0, false, []⟩).totalNodes ≤ min 1 5000 ∧
    (min 1 5000 < (reachComp mIncomers "a" (min 1 100)).length →
      ((queryIncomersGraph mIncomers "a" 1 1).toOption.getD
          ⟨"", 0, 0, false, []⟩).truncated = true ∧
      ((queryIncomersGraph mIncomers "a" 1 1).toOption.getD
          ⟨"", 0, 0, false, []⟩).totalNodes = min 1 5000 ∧
      ((queryIncomersGraph mIncomers "a" 1 1).toOption.getD
          ⟨"", 0, 0, false, []⟩).nodes.length = min 1 5000) :=
  subgraphNodeBound mIncomers "a" 1 1 _ rfl

/-! ## Claim C6 -/

/-- Claim C6: in an accepted incomers-subgraph result (with the schema's
`maxNodes >= 1`), the start entity is stored at depth 0, every stored entity's
recorded depth is exactly the shallowest hop count at which the closure
reaches it (it is reachable within its recorded depth and at no smaller
depth), and no entity is stored twice. -/
theorem subgraphDepths (m : Model) (elementId : String) (dArg nArg : Nat) (r : SubResult)
    (hok : queryIncomersGraph m elementId dArg nArg = .ok r) (hn : 1 ≤ nArg) :
    (∃ nd : SubNode, (elementId, nd) ∈ r.nodes ∧ nd.depth = 0) ∧
    (∀ p ∈ r.nodes, p.1 ∈ reachComp m elementId p.2.depth ∧
      ∀ d, d < p.2.depth → p.1 ∉ reachComp m elementId d) ∧
    (r.nodes.map Prod.fst).Nodup := by
  cases hfe : m.findElement elementId with
  | none =>
    unfold queryIncomersGraph at hok
    rw [hfe] at hok
    exact Except.noConfusion hok
  | some e0 =>
    rw [queryIncomersGraph_found dArg nArg hfe] at hok
    have hr := Except.ok.inj hok
    subst hr
    have hout := subLoop_spec m elementId (min dArg 100) (min nArg 5000)
      [(elementId, 0)] [] [] 0 (subInvInit m elementId (min dArg 100) (min nArg 5000))
    refine ⟨?_, ?_, ?_⟩
    · exact hout.startout (by omega) (by rw [hfe]; rfl)
    · intro p hp
      have h := hout.recok p hp
      exact ⟨h.2.2.1, h.2.2.2⟩
    · show ((subLoop m (min dArg 100) (min nArg 5000)
        [(elementId, 0)] [] [] 0).nodes.map Prod.fst).Nodup
      rw [hout.align]
      exact hout.nodup

/-- Witness for C6 on the incomers model with room for the whole closure. -/
theorem subgraphDepths_witness :
    (∃ nd : SubNode,
      ("a", nd) ∈ ((queryIncomersGraph mIncomers "a" 1 5).toOption.getD
        ⟨"", 0, 0, false, []⟩).nodes ∧ nd.depth = 0) ∧
    (∀ p ∈ ((queryIncomersGraph mIncomers "a" 1 5).toOption.getD
        ⟨"", 0, 0, false, []⟩).nodes,
      p.1 ∈ reachComp mIncomers "a" p.2.depth ∧
      ∀ d, d < p.2.depth → p.1 ∉ reachComp mIncomers "a" d) ∧
    (((queryIncomersGraph mIncomers "a" 1 5).toOption.getD
        ⟨"", 0, 0, false, []⟩).nodes.map Prod.fst).Nodup :=
  subgraphDepths mIncomers "a" 1 5 _ rfl (by omega)

end LikeC4
